import Mathlib

/-!
Shallow embedding of `sdn.py`: a small SDN controller keeping an undirected
topology graph (networkx `Graph` with a `num_flows` load attribute per edge)
and a flow table (Python dict keyed by `(src, dst)`), with the operations
`compute_path`, `compute_backup_path`, `add_flow`, `inject_flow`,
`remove_flow` and `fail_link`.

Modelling conventions:
* Nodes are strings, as in the source.
* The networkx graph is a list of nodes plus an association list from an
  unordered edge key (stored as the pair it was inserted with, compared up to
  orientation by `sameEdge`) to its `num_flows` counter.
* The Python dict `flow_table` is an insertion-ordered association list;
  overwriting a key keeps its position (Python dict semantics), inserting a
  fresh key appends.
* networkx exceptions that the source does not catch (`NodeNotFound`, raised
  by `shortest_simple_paths` and `shortest_path` when an endpoint is absent)
  are modelled by `Except.error`; the caught `NetworkXNoPath` turns into the
  source's `None` result, i.e. `Except.ok none`.
* `shortest_simple_paths` enumerates all simple paths in non-decreasing order
  of length; we model it as a depth-first enumeration of all simple paths
  followed by a length-stable insertion sort.  networkx's tie order among
  equal-length paths is an unspecified deterministic order; the model fixes
  one deterministic order, which is what the enumeration-order tie-breaking
  statements below refer to.
* Python's `max(0, x - 1)` on the load counters is `Nat` subtraction.
-/

namespace SDN

/-- Unordered comparison of two edge keys, matching networkx's undirected
edge lookup `G[u][v]` / `has_edge(u, v)`. -/
def sameEdge (a b : String × String) : Bool :=
  decide ((a.1 = b.1 ∧ a.2 = b.2) ∨ (a.1 = b.2 ∧ a.2 = b.1))

/-- The topology: networkx `Graph` with per-edge attribute `num_flows`. -/
structure Graph where
  nodes : List String
  edges : List ((String × String) × Nat)
deriving DecidableEq, Repr

def Graph.hasEdge (G : Graph) (u v : String) : Bool :=
  G.edges.any (fun e => sameEdge e.1 (u, v))

/-- `G[u][v]['num_flows']` as a partial lookup: `none` when the edge is absent. -/
def Graph.getLoad (G : Graph) (u v : String) : Option Nat :=
  (G.edges.find? (fun e => sameEdge e.1 (u, v))).map (fun e => e.2)

/-- Load with default 0, used for path costs over edges that do exist. -/
def Graph.loadD (G : Graph) (u v : String) : Nat :=
  (G.getLoad u v).getD 0

/-- `G[u][v]['num_flows'] = f(...)`: rewrite the load of the matching edge. -/
def Graph.modifyLoad (G : Graph) (u v : String) (f : Nat → Nat) : Graph :=
  { G with edges := G.edges.map (fun e => if sameEdge e.1 (u, v) then (e.1, f e.2) else e) }

/-- `G.remove_edge(u, v)`. -/
def Graph.removeEdge (G : Graph) (u v : String) : Graph :=
  { G with edges := G.edges.filter (fun e => !sameEdge e.1 (u, v)) }

/-- Neighbors of `u` in the undirected graph. -/
def Graph.neighbors (G : Graph) (u : String) : List String :=
  G.edges.flatMap
    (fun e => if e.1.1 = u then [e.1.2] else if e.1.2 = u then [e.1.1] else [])

/-- `zip(path, path[1:])`: the consecutive node pairs of a path. -/
def pathPairs (p : List String) : List (String × String) :=
  p.zip p.tail

/-- Depth-first enumeration of all simple paths from `cur` to `dst` that avoid
`visited`; `fuel` bounds the recursion depth.  With enough fuel this produces
exactly the simple paths (soundness and completeness are proved below), which
is the path set `nx.shortest_simple_paths` enumerates. -/
def dfsPaths (G : Graph) (dst : String) : Nat → String → List String → List (List String)
  | 0, cur, _ => if cur = dst then [[cur]] else []
  | fuel + 1, cur, visited =>
    if cur = dst then [[cur]]
    else
      ((G.neighbors cur).filter (fun n => !(cur :: visited).contains n)).flatMap
        (fun n => (dfsPaths G dst fuel n (cur :: visited)).map (fun q => cur :: q))

/-- Every node name occurring in the graph (node list plus edge endpoints);
its length bounds the length of any simple path, hence serves as DFS fuel. -/
def Graph.allNodes (G : Graph) : List String :=
  G.nodes ++ G.edges.flatMap (fun e => [e.1.1, e.1.2])

/-- Insert a path into a list of paths sorted by non-decreasing length. -/
def insertByLen (p : List String) : List (List String) → List (List String)
  | [] => [p]
  | q :: qs => if p.length < q.length then p :: q :: qs else q :: insertByLen p qs

/-- Sort paths by non-decreasing length (the order `shortest_simple_paths`
yields them in). -/
def sortByLen (l : List (List String)) : List (List String) :=
  l.foldr insertByLen []

/-- Model of `list(nx.shortest_simple_paths(G, s, d))`: all simple paths from
`s` to `d`, in non-decreasing order of length. -/
def shortestSimplePaths (G : Graph) (s d : String) : List (List String) :=
  sortByLen (dfsPaths G d G.allNodes.length s [])

/-- Python's `min(x :: xs, key=cost)`: fold keeping the first element attaining
the minimal cost (replacement only on strictly smaller cost). -/
def pyMinBy (cost : List String → Nat) (x : List String) (xs : List (List String)) :
    List String :=
  xs.foldl (fun b a => if cost a < cost b then a else b) x

/-- `path_cost` from `compute_path`: the maximum `num_flows` over the path's
consecutive edges.  Python's `max` raises an uncaught `ValueError` on an
empty sequence, i.e. when the path has no edges (a single-node path, which
the enumeration produces exactly when `src = dst`); `computePath` models
that exception explicitly before taking the minimum, so this total function
is only consulted for paths with at least one edge. -/
def pathCost (G : Graph) (p : List String) : Nat :=
  ((pathPairs p).map (fun e => G.loadD e.1 e.2)).foldl Nat.max 0

/-- Python exceptions that escape the source's `except` clauses:
`nx.NodeNotFound` from the path queries on an absent endpoint, and
`ValueError` from `max()` over an empty sequence in `path_cost`. -/
inductive PyErr where
  | nodeNotFound
  | valueError
deriving DecidableEq, Repr

instance {ε α : Type} [DecidableEq ε] [DecidableEq α] : DecidableEq (Except ε α) :=
  fun a b =>
  match a, b with
  | .error e1, .error e2 =>
    if h : e1 = e2 then .isTrue (h ▸ rfl) else .isFalse (fun hh => h (Except.error.inj hh))
  | .error _, .ok _ => .isFalse (fun hh => Except.noConfusion hh)
  | .ok _, .error _ => .isFalse (fun hh => Except.noConfusion hh)
  | .ok v1, .ok v2 =>
    if h : v1 = v2 then .isTrue (h ▸ rfl) else .isFalse (fun hh => h (Except.ok.inj hh))

/-- `compute_path(src, dst, priority, critical)`.  `shortest_simple_paths`
raises `NodeNotFound` (not caught by the source, which catches only
`NetworkXNoPath`) when an endpoint is absent; it raises `NetworkXNoPath`
(turned into `None`) when no path exists.  The `critical` argument is unused,
as in the source. -/
def computePath (G : Graph) (src dst : String) (priority critical : Bool) :
    Except PyErr (Option (List String)) :=
  if src ∈ G.nodes ∧ dst ∈ G.nodes then
    match shortestSimplePaths G src dst with
    | [] => .ok none
    | p :: rest =>
      if priority then .ok (some p)
      else if (p :: rest).any (fun q => (pathPairs q).isEmpty) then
        -- `min(paths, key=path_cost)` evaluates `path_cost` on every
        -- enumerated path; on a path with no edges (only possible for
        -- `src = dst`, where the enumeration is `[[src]]`) its `max()`
        -- over the empty pair sequence raises an uncaught `ValueError`.
        .error .valueError
      else .ok (some (pyMinBy (pathCost G) p rest))
  else .error .nodeNotFound

/-- The loop in `compute_backup_path` removing every primary-path edge from
the transient copy (`if G_copy.has_edge(u, v): G_copy.remove_edge(u, v)`). -/
def removePathEdges (G : Graph) (p : List String) : Graph :=
  (pathPairs p).foldl
    (fun g q => if g.hasEdge q.1 q.2 then g.removeEdge q.1 q.2 else g) G

/-- Model of `nx.shortest_path(G, s, d)` wrapped in the source's
`except nx.NetworkXNoPath` handler: a shortest simple path by hop count, or
`none` when disconnected; `NodeNotFound` when an endpoint is absent. -/
def nxShortestPathCaught (G : Graph) (s d : String) :
    Except PyErr (Option (List String)) :=
  if s ∈ G.nodes ∧ d ∈ G.nodes then
    match shortestSimplePaths G s d with
    | [] => .ok none
    | p :: _ => .ok (some p)
  else .error .nodeNotFound

/-- `compute_backup_path(primary_path)`: copy the graph, remove the primary
path's edges, and find a shortest path between the primary's endpoints.
(`primary_path[0]` / `primary_path[-1]` would raise on an empty list; the
defaults are never exercised, every caller passes a nonempty path.) -/
def computeBackupPath (G : Graph) (primaryPath : List String) :
    Except PyErr (Option (List String)) :=
  nxShortestPathCaught (removePathEdges G primaryPath)
    (primaryPath.headD "") (primaryPath.getLastD "")

/-- `flow_table` record values:
`{'priority': ..., 'critical': ..., 'primary': ..., 'backup': ..., 'active': ...}`. -/
inductive Active where
  | primary
  | backup
deriving DecidableEq, Repr

structure FlowRec where
  priority : Bool
  critical : Bool
  primary : List String
  backup : Option (List String)
  active : Active
deriving DecidableEq, Repr

/-- `info.get(info['active'], [])`.  In the source the lookup key is the
string `'primary'` or `'backup'`; a `backup` of `None` would be returned
as-is (and crash later in `zip`), but that state is unreachable because
`active` is only ever set to `'backup'` when `backup` is a nonempty list. -/
def activePath (r : FlowRec) : List String :=
  match r.active with
  | .primary => r.primary
  | .backup => r.backup.getD []

abbrev FlowTable := List ((String × String) × FlowRec)

structure State where
  G : Graph
  table : FlowTable
deriving DecidableEq, Repr

/-- Dict lookup `flow_table[(src, dst)]` / `key in flow_table`. -/
def lookupFlow (t : FlowTable) (k : String × String) : Option FlowRec :=
  (t.find? (fun kv => decide (kv.1 = k))).map (fun kv => kv.2)

/-- Dict store `flow_table[(src, dst)] = rec`: overwrite in place when the key
exists (Python dicts keep the original position), append otherwise. -/
def insertFlow (t : FlowTable) (k : String × String) (r : FlowRec) : FlowTable :=
  if t.any (fun kv => decide (kv.1 = k)) then
    t.map (fun kv => if kv.1 = k then (k, r) else kv)
  else t ++ [(k, r)]

/-- `del flow_table[key]`. -/
def eraseFlow (t : FlowTable) (k : String × String) : FlowTable :=
  t.filter (fun kv => !decide (kv.1 = k))

/-- `flow_table[(src, dst)]['active'] = 'backup'`. -/
def setActiveBackup (t : FlowTable) (k : String × String) : FlowTable :=
  t.map (fun kv => if kv.1 = k then (kv.1, { kv.2 with active := .backup }) else kv)

/-- Increment `num_flows` along a path's edges, guarded by `has_edge`
(`add_flow` and the reroute branch of `fail_link`). -/
def incPathLoads (g : Graph) (p : List String) : Graph :=
  (pathPairs p).foldl
    (fun g q => if g.hasEdge q.1 q.2 then g.modifyLoad q.1 q.2 (fun n => n + 1) else g) g

/-- Decrement `num_flows` along a path's edges, guarded by `has_edge`, with
`max(0, ... - 1)` flooring (`remove_flow` and `fail_link`). -/
def decPathLoads (g : Graph) (p : List String) : Graph :=
  (pathPairs p).foldl
    (fun g q => if g.hasEdge q.1 q.2 then g.modifyLoad q.1 q.2 (fun n => n - 1) else g) g

/-- `add_flow(src, dst, path, priority, critical, backup_path)`. -/
def addFlow (st : State) (src dst : String) (path : List String)
    (priority critical : Bool) (backupPath : Option (List String)) : State :=
  { G := incPathLoads st.G path
    table := insertFlow st.table (src, dst)
      ⟨priority, critical, path, backupPath, .primary⟩ }

/-- `inject_flow(src, dst, priority, critical)`: compute a path (returning
with no state change when there is none), compute a backup when `critical`,
then `add_flow`. -/
def injectFlow (st : State) (src dst : String) (priority critical : Bool) :
    Except PyErr State :=
  match computePath st.G src dst priority critical with
  | .error e => .error e
  | .ok none => .ok st
  | .ok (some path) =>
    match (if critical then computeBackupPath st.G path else .ok none) with
    | .error e => .error e
    | .ok backupPath => .ok (addFlow st src dst path priority critical backupPath)

/-- `remove_flow(src, dst)`: no-op when the key is absent; otherwise decrement
the active path's loads and delete the record. -/
def removeFlow (st : State) (src dst : String) : State :=
  match lookupFlow st.table (src, dst) with
  | none => st
  | some r =>
    { G := decPathLoads st.G (activePath r)
      table := eraseFlow st.table (src, dst) }

/-- Python truthiness of `info['backup']`: `None` and `[]` are falsy. -/
def truthy : Option (List String) → Bool
  | none => false
  | some l => !l.isEmpty

/-- The affected test in `fail_link`, with the source's operator precedence
`(path and (u, v) in pairs) or (v, u) in pairs`. -/
def isAffected (r : FlowRec) (u v : String) : Bool :=
  let path := activePath r
  (!path.isEmpty && (pathPairs path).contains (u, v)) ||
    (pathPairs path).contains (v, u)

/-- Outcomes reported by `fail_link` for each affected flow. -/
inductive Outcome where
  | rerouted (src dst : String) (path : List String)
  | evicted (src dst : String)
deriving DecidableEq, Repr

/-- The body of `fail_link`'s per-flow loop: decrement the old active path,
then either promote the backup (critical with truthy backup) or delete the
record. -/
def processFlow (st : State) (k : String × String) (r : FlowRec) : State × Outcome :=
  let g1 := decPathLoads st.G (activePath r)
  if r.critical && truthy r.backup then
    let b := r.backup.getD []
    (⟨incPathLoads g1 b, setActiveBackup st.table k⟩, .rerouted k.1 k.2 b)
  else
    (⟨g1, eraseFlow st.table k⟩, .evicted k.1 k.2)

/-- `fail_link(u, v)`: `none` outcome list when the edge is absent (the
"No link exists" early return); otherwise remove the edge, snapshot the
affected flows, and process them in table order. -/
def failLink (st : State) (u v : String) : State × Option (List Outcome) :=
  if st.G.hasEdge u v then
    let g := st.G.removeEdge u v
    let affected := st.table.filter (fun kv => isAffected kv.2 u v)
    let res := affected.foldl
      (fun acc kv =>
        ((processFlow acc.1 kv.1 kv.2).1, acc.2 ++ [(processFlow acc.1 kv.1 kv.2).2]))
      (⟨g, st.table⟩, [])
    (res.1, some res.2)
  else (st, none)

/-- `compute_path` as a state transformer over the controller state `(G,
flow_table)`: the source function only reads the global `G`; the state it
leaves behind is returned explicitly so that freedom from side effects is a
statement, not a convention. -/
def computePathOp (st : State) (src dst : String) (priority critical : Bool) :
    Except PyErr (Option (List String) × State) :=
  (computePath st.G src dst priority critical).map (fun r => (r, st))

/-- `compute_backup_path` as a state transformer: all edge removals happen on
the transient copy `G_copy` inside `computeBackupPath`; the live state is
returned unchanged. -/
def computeBackupPathOp (st : State) (primaryPath : List String) :
    Except PyErr (Option (List String) × State) :=
  (computeBackupPath st.G primaryPath).map (fun r => (r, st))

/-! ### Concrete topologies and states used for witnesses and counterexamples -/

def exG : Graph := ⟨["A", "B"], [(("A", "B"), 0)]⟩

def exInit : State := ⟨exG, []⟩

def exRec : FlowRec := ⟨true, false, ["A", "B"], none, .primary⟩

def c1Mid : State := ⟨⟨["A", "B"], [(("A", "B"), 1)]⟩, [(("A", "B"), exRec)]⟩

def c1Final : State := ⟨⟨["A", "B"], [(("A", "B"), 2)]⟩, [(("A", "B"), exRec)]⟩

def c2G : Graph :=
  ⟨["A", "B", "C"], [(("A", "B"), 0), (("A", "C"), 0), (("C", "B"), 0)]⟩

def c2Init : State := ⟨c2G, []⟩

def c2RecP : FlowRec := ⟨true, true, ["A", "B"], some ["A", "C", "B"], .primary⟩

def c2RecB : FlowRec := ⟨true, true, ["A", "B"], some ["A", "C", "B"], .backup⟩

def c2S1 : State :=
  ⟨⟨["A", "B", "C"], [(("A", "B"), 1), (("A", "C"), 0), (("C", "B"), 0)]⟩,
   [(("A", "B"), c2RecP)]⟩

def c2S2 : State :=
  ⟨⟨["A", "B", "C"], [(("A", "C"), 1), (("C", "B"), 1)]⟩, [(("A", "B"), c2RecB)]⟩

def c2S3 : State :=
  ⟨⟨["A", "B", "C"], [(("C", "B"), 1)]⟩, [(("A", "B"), c2RecB)]⟩

def c2S1NonCrit : State :=
  ⟨⟨["A", "B", "C"], [(("A", "B"), 1), (("A", "C"), 0), (("C", "B"), 0)]⟩,
   [(("A", "B"), exRec)]⟩

def c7S2 : State :=
  ⟨⟨["A", "B", "C"], [(("A", "B"), 1), (("A", "C"), 0)]⟩, [(("A", "B"), c2RecP)]⟩

def c7S3 : State :=
  ⟨⟨["A", "B", "C"], [(("A", "C"), 1)]⟩, [(("A", "B"), c2RecB)]⟩

def noEdgeInit : State := ⟨⟨["A", "B"], []⟩, []⟩

def oneNodeG : Graph := ⟨["A"], []⟩

/-! ### Specification-level definitions -/

/-- Number of consecutive pairs of a pair list matching the edge key `e`. -/
def cntIn (qs : List (String × String)) (e : String × String) : Nat :=
  (qs.filter (fun q => sameEdge q e)).length

/-- Whether a flow record's currently active path traverses the edge `e`
(in either direction). -/
def traverses (r : FlowRec) (e : String × String) : Bool :=
  (pathPairs (activePath r)).any (fun q => sameEdge q e)

/-- The number of flow records whose active path traverses the edge `e`. -/
def edgeFlowCount (t : FlowTable) (e : String × String) : Nat :=
  (t.filter (fun kv => traverses kv.2 e)).length

/-- Load conservation: every edge's `num_flows` equals the number of flow
records whose active path traverses it. -/
def Conservation (st : State) : Prop :=
  ∀ el ∈ st.G.edges, el.2 = edgeFlowCount st.table el.1

/-- All stored paths are simple (no repeated node). -/
def PathsNodup (st : State) : Prop :=
  ∀ kv ∈ st.table, kv.2.primary.Nodup ∧ ∀ b, kv.2.backup = some b → b.Nodup

/-- The flow-table keys are pairwise distinct (Python dict keys). -/
def KeysNodup (t : FlowTable) : Prop :=
  (t.map Prod.fst).Nodup

/-- The inductive invariant carried across operations. -/
def Inv (st : State) : Prop :=
  Conservation st ∧ PathsNodup st ∧ KeysNodup st.table

/-- One core operation as observed by the shell: an install on a key not
currently present, a removal, or a link failure (each including its error
no-op cases). -/
inductive GoodStep : State → State → Prop
  | inject (st st2 : State) (src dst : String) (priority critical : Bool)
      (hfresh : lookupFlow st.table (src, dst) = none)
      (hok : injectFlow st src dst priority critical = .ok st2) : GoodStep st st2
  | remove (st : State) (src dst : String) : GoodStep st (removeFlow st src dst)
  | fail (st : State) (u v : String) : GoodStep st (failLink st u v).1

/-- `q` is a simple path from `s` to `d` in `G`. -/
def IsSimplePath (G : Graph) (s d : String) (q : List String) : Prop :=
  q.head? = some s ∧ q.getLast? = some d ∧ q.Nodup ∧
    ∀ e ∈ pathPairs q, G.hasEdge e.1 e.2 = true

/-- Two pair lists share no edge in either direction. -/
def EdgeDisjoint (a b : List (String × String)) : Prop :=
  ∀ x ∈ a, ∀ y ∈ b, sameEdge x y = false

/-! ### Basic lemmas about edge keys and graph updates -/

theorem sameEdge_symm (a b : String × String) : sameEdge a b = sameEdge b a := by
  simp only [sameEdge, decide_eq_decide]
  tauto

theorem sameEdge_trans {a b c : String × String} (h1 : sameEdge a b = true)
    (h2 : sameEdge b c = true) : sameEdge a c = true := by
  obtain ⟨a1, a2⟩ := a
  obtain ⟨b1, b2⟩ := b
  obtain ⟨c1, c2⟩ := c
  simp only [sameEdge, decide_eq_true_eq] at *
  rcases h1 with ⟨h1, h2'⟩ | ⟨h1, h2'⟩ <;> rcases h2 with ⟨h3, h4⟩ | ⟨h3, h4⟩ <;>
    subst_vars <;> tauto

theorem sameEdge_eta {e q : String × String} :
    sameEdge e (q.1, q.2) = sameEdge e q := by
  rfl

theorem hasEdge_of_mem {G : Graph} {el : (String × String) × Nat} (hmem : el ∈ G.edges)
    {u v : String} (h : sameEdge el.1 (u, v) = true) : G.hasEdge u v = true :=
  List.any_eq_true.mpr ⟨el, hmem, h⟩

theorem hasEdge_modifyLoad (G : Graph) (u v : String) (f : Nat → Nat) (x y : String) :
    (G.modifyLoad u v f).hasEdge x y = G.hasEdge x y := by
  simp only [Graph.hasEdge, Graph.modifyLoad, List.any_map]
  congr 1
  funext el
  by_cases h : sameEdge el.1 (u, v) = true <;> simp [h, Function.comp]

theorem cntIn_cons (q : String × String) (qs : List (String × String))
    (e : String × String) :
    cntIn (q :: qs) e = (if sameEdge q e = true then 1 else 0) + cntIn qs e := by
  simp only [cntIn, List.filter_cons]
  split <;> simp [Nat.add_comm]

/-! ### The load-update folds, described pointwise -/

theorem incLoads_edges_aux (qs : List (String × String)) :
    ∀ g : Graph,
      ((qs.foldl (fun g q =>
          if g.hasEdge q.1 q.2 then g.modifyLoad q.1 q.2 (fun n => n + 1) else g) g).edges)
        = g.edges.map (fun el => (el.1, el.2 + cntIn qs el.1)) := by
  induction qs with
  | nil => intro g; simp [cntIn]
  | cons q qs ih =>
    intro g
    rw [List.foldl_cons]
    by_cases h : g.hasEdge q.1 q.2 = true
    · rw [if_pos h, ih]
      simp only [Graph.modifyLoad, List.map_map]
      congr 1
      funext el
      by_cases hq : sameEdge el.1 (q.1, q.2) = true
      · have hq' : sameEdge q el.1 = true := by
          rw [sameEdge_symm]; rw [sameEdge_eta] at hq; exact hq
        simp only [Function.comp, hq, if_pos, cntIn_cons, hq', if_true]
        simp [Nat.add_assoc, Nat.add_comm 1 (cntIn qs el.1)]
      · have hq' : sameEdge q el.1 = false := by
          rw [sameEdge_symm]; rw [sameEdge_eta] at hq; simpa using hq
        simp [Function.comp, hq, cntIn_cons, hq']
    · rw [if_neg h, ih]
      apply List.map_congr_left
      intro el hel
      have hq' : sameEdge q el.1 = false := by
        by_contra hc
        have hc' : sameEdge q el.1 = true := by
          cases hcc : sameEdge q el.1 <;> simp_all
        have : sameEdge el.1 (q.1, q.2) = true := by
          rw [sameEdge_eta, sameEdge_symm]; exact hc'
        exact h (hasEdge_of_mem hel this)
      rw [cntIn_cons, hq']
      simp

theorem decLoads_edges_aux (qs : List (String × String)) :
    ∀ g : Graph,
      ((qs.foldl (fun g q =>
          if g.hasEdge q.1 q.2 then g.modifyLoad q.1 q.2 (fun n => n - 1) else g) g).edges)
        = g.edges.map (fun el => (el.1, el.2 - cntIn qs el.1)) := by
  induction qs with
  | nil => intro g; simp [cntIn]
  | cons q qs ih =>
    intro g
    rw [List.foldl_cons]
    by_cases h : g.hasEdge q.1 q.2 = true
    · rw [if_pos h, ih]
      simp only [Graph.modifyLoad, List.map_map]
      congr 1
      funext el
      by_cases hq : sameEdge el.1 (q.1, q.2) = true
      · have hq' : sameEdge q el.1 = true := by
          rw [sameEdge_symm]; rw [sameEdge_eta] at hq; exact hq
        simp only [Function.comp, hq, if_pos, cntIn_cons, hq', if_true]
        simp [Nat.sub_sub, Nat.add_comm 1 (cntIn qs el.1)]
      · have hq' : sameEdge q el.1 = false := by
          rw [sameEdge_symm]; rw [sameEdge_eta] at hq; simpa using hq
        simp [Function.comp, hq, cntIn_cons, hq']
    · rw [if_neg h, ih]
      apply List.map_congr_left
      intro el hel
      have hq' : sameEdge q el.1 = false := by
        by_contra hc
        have hc' : sameEdge q el.1 = true := by
          cases hcc : sameEdge q el.1 <;> simp_all
        have : sameEdge el.1 (q.1, q.2) = true := by
          rw [sameEdge_eta, sameEdge_symm]; exact hc'
        exact h (hasEdge_of_mem hel this)
      rw [cntIn_cons, hq']
      simp

theorem incPathLoads_edges (g : Graph) (p : List String) :
    (incPathLoads g p).edges
      = g.edges.map (fun el => (el.1, el.2 + cntIn (pathPairs p) el.1)) :=
  incLoads_edges_aux (pathPairs p) g

theorem decPathLoads_edges (g : Graph) (p : List String) :
    (decPathLoads g p).edges
      = g.edges.map (fun el => (el.1, el.2 - cntIn (pathPairs p) el.1)) :=
  decLoads_edges_aux (pathPairs p) g

/-! ### Consecutive pairs of simple paths -/

theorem pathPairs_cons_cons (a b : String) (l : List String) :
    pathPairs (a :: b :: l) = (a, b) :: pathPairs (b :: l) := rfl

theorem mem_pathPairs {p : List String} {e : String × String} (h : e ∈ pathPairs p) :
    e.1 ∈ p ∧ e.2 ∈ p.tail := by
  obtain ⟨e1, e2⟩ := e
  exact List.mem_zip h

theorem pathPairs_pairwise {p : List String} (h : p.Nodup) :
    (pathPairs p).Pairwise (fun a b => sameEdge a b = false) := by
  induction p with
  | nil => exact List.Pairwise.nil
  | cons a p ih =>
    cases p with
    | nil => exact List.Pairwise.nil
    | cons b l =>
      rw [pathPairs_cons_cons]
      rcases List.nodup_cons.mp h with ⟨ha, hbl⟩
      refine List.Pairwise.cons ?_ (ih hbl)
      intro q hq
      have hcomp := mem_pathPairs hq
      cases hse : sameEdge (a, b) q
      · rfl
      · exfalso
        have hd : (a = q.1 ∧ b = q.2) ∨ (a = q.2 ∧ b = q.1) := by
          simpa [sameEdge] using hse
        rcases hd with ⟨h1, _⟩ | ⟨h1, _⟩
        · exact ha (h1 ▸ hcomp.1)
        · exact ha (h1 ▸ List.mem_cons_of_mem b hcomp.2)

theorem cntIn_eq_ite {qs : List (String × String)} {e : String × String}
    (h : qs.Pairwise (fun a b => sameEdge a b = false)) :
    cntIn qs e = if qs.any (fun q => sameEdge q e) then 1 else 0 := by
  induction qs with
  | nil => simp [cntIn]
  | cons q qs ih =>
    rcases List.pairwise_cons.mp h with ⟨hq, hqs⟩
    rw [cntIn_cons, ih hqs]
    cases hse : sameEdge q e
    · rw [List.any_cons, hse, Bool.false_or]
      simp
    · have hzero : qs.filter (fun x => sameEdge x e) = [] := by
        rw [List.filter_eq_nil_iff]
        intro x hx hxe
        have h1 : sameEdge e x = true := by rw [sameEdge_symm]; exact hxe
        have h2 : sameEdge q x = true := sameEdge_trans hse h1
        rw [hq x hx] at h2
        cases h2
      have hz : cntIn qs e = 0 := by simp [cntIn, hzero]
      have hany : qs.any (fun x => sameEdge x e) = false := by
        cases hA : qs.any (fun x => sameEdge x e)
        · rfl
        · exfalso
          rcases List.any_eq_true.mp hA with ⟨x, hx, hxe⟩
          have : x ∈ qs.filter (fun x => sameEdge x e) := List.mem_filter.mpr ⟨hx, hxe⟩
          rw [hzero] at this
          cases this
      simp [List.any_cons, hse, hz, hany]

theorem cntIn_pathPairs_eq {p : List String} (h : p.Nodup) (e : String × String) :
    cntIn (pathPairs p) e
      = if (pathPairs p).any (fun q => sameEdge q e) then 1 else 0 :=
  cntIn_eq_ite (pathPairs_pairwise h)

/-! ### Flow-table lemmas -/

theorem lookupFlow_eq_none_iff {t : FlowTable} {k : String × String} :
    lookupFlow t k = none ↔ ∀ kv ∈ t, kv.1 ≠ k := by
  simp [lookupFlow, List.find?_eq_none]

theorem lookupFlow_mem {t : FlowTable} {k : String × String} {r : FlowRec}
    (h : lookupFlow t k = some r) : (k, r) ∈ t := by
  simp only [lookupFlow, Option.map_eq_some'] at h
  obtain ⟨kv, hfind, hr⟩ := h
  obtain ⟨k', r'⟩ := kv
  have hk : k' = k := by simpa using List.find?_some hfind
  have hmem := List.mem_of_find?_eq_some hfind
  simp only at hr
  rw [hk, hr] at hmem
  exact hmem

theorem insertFlow_fresh {t : FlowTable} {k : String × String} (r : FlowRec)
    (h : ∀ kv ∈ t, kv.1 ≠ k) : insertFlow t k r = t ++ [(k, r)] := by
  unfold insertFlow
  rw [if_neg]
  simp only [List.any_eq_true, decide_eq_true_eq, not_exists]
  intro kv
  intro hkv
  exact h kv hkv.1 hkv.2

theorem edgeFlowCount_append (t1 t2 : FlowTable) (e : String × String) :
    edgeFlowCount (t1 ++ t2) e = edgeFlowCount t1 e + edgeFlowCount t2 e := by
  simp [edgeFlowCount, List.filter_append]

theorem edgeFlowCount_cons (kv : (String × String) × FlowRec) (t : FlowTable)
    (e : String × String) :
    edgeFlowCount (kv :: t) e
      = (if traverses kv.2 e = true then 1 else 0) + edgeFlowCount t e := by
  simp only [edgeFlowCount, List.filter_cons]
  split <;> simp [Nat.add_comm]

theorem edgeFlowCount_pos {t : FlowTable} {k : String × String} {r : FlowRec}
    {e : String × String} (hmem : (k, r) ∈ t) (htrav : traverses r e = true) :
    1 ≤ edgeFlowCount t e := by
  have hm : (k, r) ∈ t.filter (fun kv => traverses kv.2 e) :=
    List.mem_filter.mpr ⟨hmem, htrav⟩
  exact List.length_pos.mpr (List.ne_nil_of_mem hm)

theorem eraseFlow_of_not_mem {t : FlowTable} {k : String × String}
    (h : ∀ kv ∈ t, kv.1 ≠ k) : eraseFlow t k = t := by
  unfold eraseFlow
  rw [List.filter_eq_self]
  intro kv hkv
  simp [h kv hkv]

theorem setActiveBackup_of_not_mem {t : FlowTable} {k : String × String}
    (h : ∀ kv ∈ t, kv.1 ≠ k) : setActiveBackup t k = t := by
  unfold setActiveBackup
  conv_rhs => rw [← List.map_id t]
  apply List.map_congr_left
  intro kv hkv
  simp [h kv hkv]

theorem keys_not_mem_of_nodup {t : FlowTable} {kv : (String × String) × FlowRec}
    (h : KeysNodup (kv :: t)) : ∀ kv2 ∈ t, kv2.1 ≠ kv.1 := by
  intro kv2 hkv2 heq
  have : kv.1 ∉ t.map Prod.fst := (List.nodup_cons.mp h).1
  exact this (List.mem_map.mpr ⟨kv2, hkv2, heq⟩)

theorem keysNodup_of_cons {t : FlowTable} {kv : (String × String) × FlowRec}
    (h : KeysNodup (kv :: t)) : KeysNodup t :=
  (List.nodup_cons.mp h).2

theorem edgeFlowCount_erase {t : FlowTable} {k : String × String} {r : FlowRec}
    (hnd : KeysNodup t) (hmem : (k, r) ∈ t) (e : String × String) :
    edgeFlowCount t e
      = edgeFlowCount (eraseFlow t k) e + (if traverses r e = true then 1 else 0) := by
  induction t with
  | nil => cases hmem
  | cons kv t ih =>
    by_cases hk : kv.1 = k
    · have hkr : kv = (k, r) := by
        rcases List.mem_cons.mp hmem with h | h
        · exact h.symm
        · exfalso
          exact keys_not_mem_of_nodup hnd (k, r) h (by simp [hk])
      subst hkr
      have hnot : ∀ kv2 ∈ t, kv2.1 ≠ k := by
        intro kv2 hkv2
        have := keys_not_mem_of_nodup hnd kv2 hkv2
        simpa using this
      have herase : eraseFlow ((k, r) :: t) k = t := by
        have h1 : eraseFlow ((k, r) :: t) k = eraseFlow t k := by
          simp [eraseFlow, List.filter_cons]
        rw [h1, eraseFlow_of_not_mem hnot]
      rw [herase, edgeFlowCount_cons]
      exact Nat.add_comm _ _
    · have hmem2 : (k, r) ∈ t := by
        rcases List.mem_cons.mp hmem with h | h
        · exact absurd (congrArg Prod.fst h.symm) hk
        · exact h
      have herase : eraseFlow (kv :: t) k = kv :: eraseFlow t k := by
        simp [eraseFlow, List.filter_cons, hk]
      rw [herase, edgeFlowCount_cons, edgeFlowCount_cons,
        ih (keysNodup_of_cons hnd) hmem2]
      omega

theorem edgeFlowCount_setActive {t : FlowTable} {k : String × String} {r : FlowRec}
    (hnd : KeysNodup t) (hmem : (k, r) ∈ t) (e : String × String) :
    edgeFlowCount (setActiveBackup t k) e + (if traverses r e = true then 1 else 0)
      = edgeFlowCount t e
        + (if traverses { r with active := .backup } e = true then 1 else 0) := by
  induction t with
  | nil => cases hmem
  | cons kv t ih =>
    by_cases hk : kv.1 = k
    · have hkr : kv = (k, r) := by
        rcases List.mem_cons.mp hmem with h | h
        · exact h.symm
        · exfalso
          exact keys_not_mem_of_nodup hnd (k, r) h (by simp [hk])
      subst hkr
      have hnot : ∀ kv2 ∈ t, kv2.1 ≠ k := by
        intro kv2 hkv2
        have := keys_not_mem_of_nodup hnd kv2 hkv2
        simpa using this
      have hset : setActiveBackup ((k, r) :: t) k
          = (k, { r with active := .backup }) :: t := by
        have h1 : setActiveBackup ((k, r) :: t) k
            = (k, { r with active := .backup }) :: setActiveBackup t k := by
          simp [setActiveBackup]
        rw [h1, setActiveBackup_of_not_mem hnot]
      rw [hset, edgeFlowCount_cons, edgeFlowCount_cons]
      dsimp only
      omega
    · have hmem2 : (k, r) ∈ t := by
        rcases List.mem_cons.mp hmem with h | h
        · exact absurd (congrArg Prod.fst h.symm) hk
        · exact h
      have hset : setActiveBackup (kv :: t) k = kv :: setActiveBackup t k := by
        simp [setActiveBackup, hk]
      rw [hset, edgeFlowCount_cons, edgeFlowCount_cons]
      have := ih (keysNodup_of_cons hnd) hmem2
      omega

theorem mem_eraseFlow_of_ne {t : FlowTable} {k k2 : String × String} {r2 : FlowRec}
    (h : k2 ≠ k) : (k2, r2) ∈ eraseFlow t k ↔ (k2, r2) ∈ t := by
  simp [eraseFlow, List.mem_filter, h]

theorem mem_setActiveBackup_of_ne {t : FlowTable} {k k2 : String × String} {r2 : FlowRec}
    (h : k2 ≠ k) : (k2, r2) ∈ setActiveBackup t k ↔ (k2, r2) ∈ t := by
  constructor
  · intro hm
    rcases List.mem_map.mp hm with ⟨kv, hkv, heq⟩
    by_cases hkk : kv.1 = k
    · rw [if_pos hkk] at heq
      have hk2 : kv.1 = k2 := congrArg Prod.fst heq
      exact absurd (hk2.symm.trans hkk) h
    · rw [if_neg hkk] at heq
      rw [← heq]
      exact hkv
  · intro hm
    refine List.mem_map.mpr ⟨(k2, r2), hm, ?_⟩
    simp [h]

theorem keysNodup_erase {t : FlowTable} (k : String × String) (h : KeysNodup t) :
    KeysNodup (eraseFlow t k) :=
  List.Sublist.nodup (List.Sublist.map Prod.fst (List.filter_sublist t)) h

theorem keys_setActiveBackup (t : FlowTable) (k : String × String) :
    (setActiveBackup t k).map Prod.fst = t.map Prod.fst := by
  simp only [setActiveBackup, List.map_map]
  apply List.map_congr_left
  intro kv hkv
  by_cases hkk : kv.1 = k <;> simp [hkk, Function.comp]

theorem keysNodup_setActive {t : FlowTable} (k : String × String) (h : KeysNodup t) :
    KeysNodup (setActiveBackup t k) := by
  unfold KeysNodup
  rw [keys_setActiveBackup]
  exact h

/-! ### Conservation preservation, operation by operation -/

theorem activePath_nodup {r : FlowRec} (hp : r.primary.Nodup)
    (hb : ∀ b, r.backup = some b → b.Nodup) : (activePath r).Nodup := by
  cases hA : r.active with
  | primary => simpa [activePath, hA] using hp
  | backup =>
    cases hbk : r.backup with
    | none => simp [activePath, hA, hbk]
    | some b =>
      simp only [activePath, hA, hbk, Option.getD_some]
      exact hb b hbk

theorem cntIn_activePath {r : FlowRec} (h : (activePath r).Nodup) (e : String × String) :
    cntIn (pathPairs (activePath r)) e = if traverses r e = true then 1 else 0 := by
  rw [cntIn_pathPairs_eq h]
  rfl

theorem edgeFlowCount_nil (e : String × String) : edgeFlowCount [] e = 0 := rfl

theorem conservation_addFlow {st : State} {s d : String} {p : List String}
    {pri crit : Bool} {bk : Option (List String)}
    (hC : Conservation st) (hfresh : lookupFlow st.table (s, d) = none)
    (hp : p.Nodup) :
    Conservation (addFlow st s d p pri crit bk) := by
  intro el hel
  have hins : insertFlow st.table (s, d) ⟨pri, crit, p, bk, .primary⟩
      = st.table ++ [((s, d), ⟨pri, crit, p, bk, .primary⟩)] :=
    insertFlow_fresh _ (lookupFlow_eq_none_iff.mp hfresh)
  simp only [addFlow, incPathLoads_edges] at hel ⊢
  rcases List.mem_map.mp hel with ⟨el0, hel0, heq⟩
  rw [← heq]
  dsimp only
  rw [hins, edgeFlowCount_append, edgeFlowCount_cons, edgeFlowCount_nil]
  have hcnt : cntIn (pathPairs p) el0.1
      = if traverses ⟨pri, crit, p, bk, .primary⟩ el0.1 = true then 1 else 0 := by
    rw [cntIn_pathPairs_eq hp]
    rfl
  rw [hcnt, hC el0 hel0]
  dsimp only
  omega

theorem conservation_dec_erase {st : State} {k : String × String} {r : FlowRec}
    (hC : Conservation st) (hnd : KeysNodup st.table) (hmem : (k, r) ∈ st.table)
    (hap : (activePath r).Nodup) :
    Conservation ⟨decPathLoads st.G (activePath r), eraseFlow st.table k⟩ := by
  intro el hel
  simp only [decPathLoads_edges] at hel
  rcases List.mem_map.mp hel with ⟨el0, hel0, heq⟩
  rw [← heq]
  dsimp only
  have hcnt := cntIn_activePath hap el0.1
  have hE := edgeFlowCount_erase hnd hmem el0.1
  have hload := hC el0 hel0
  rw [hcnt]
  omega

theorem conservation_promote {st : State} {k : String × String} {r : FlowRec}
    {b : List String}
    (hC : Conservation st) (hnd : KeysNodup st.table) (hmem : (k, r) ∈ st.table)
    (hap : (activePath r).Nodup) (hb : r.backup = some b) (hbnd : b.Nodup) :
    Conservation ⟨incPathLoads (decPathLoads st.G (activePath r)) (r.backup.getD []),
      setActiveBackup st.table k⟩ := by
  intro el hel
  simp only [hb, Option.getD_some, incPathLoads_edges, decPathLoads_edges,
    List.map_map] at hel
  rcases List.mem_map.mp hel with ⟨el0, hel0, heq⟩
  rw [← heq]
  dsimp only [Function.comp]
  have hcd := cntIn_activePath hap el0.1
  have hcb : cntIn (pathPairs b) el0.1
      = if traverses { r with active := .backup } el0.1 = true then 1 else 0 := by
    rw [cntIn_pathPairs_eq hbnd]
    dsimp only [traverses, activePath]
    rw [hb]
    rfl
  have hS := edgeFlowCount_setActive hnd hmem el0.1
  have hload := hC el0 hel0
  have hpos : (if traverses r el0.1 = true then 1 else 0)
      ≤ edgeFlowCount st.table el0.1 := by
    by_cases ht : traverses r el0.1 = true
    · simpa [ht] using edgeFlowCount_pos hmem ht
    · simp [ht]
  rw [hcd, hcb]
  omega

theorem processFlow_inv {st : State} {k : String × String} {r : FlowRec}
    (hI : Inv st) (hmem : (k, r) ∈ st.table) :
    Inv (processFlow st k r).1 ∧
      ∀ k2 r2, k2 ≠ k →
        (((k2, r2) ∈ (processFlow st k r).1.table) ↔ (k2, r2) ∈ st.table) := by
  obtain ⟨hC, hP, hK⟩ := hI
  have hrecnd := hP (k, r) hmem
  have hap : (activePath r).Nodup := activePath_nodup hrecnd.1 hrecnd.2
  by_cases hcond : (r.critical && truthy r.backup) = true
  · obtain ⟨b, hb, _⟩ : ∃ b, r.backup = some b ∧ b.isEmpty = false := by
      cases hbk : r.backup with
      | none => rw [hbk] at hcond; simp [truthy] at hcond
      | some l =>
        refine ⟨l, rfl, ?_⟩
        rw [hbk] at hcond
        simp [truthy] at hcond
        simpa using hcond.2
    have hbnd : b.Nodup := hrecnd.2 b hb
    have hres : (processFlow st k r).1
        = ⟨incPathLoads (decPathLoads st.G (activePath r)) (r.backup.getD []),
            setActiveBackup st.table k⟩ := by
      simp [processFlow, hcond]
    rw [hres]
    refine ⟨⟨conservation_promote hC hK hmem hap hb hbnd, ?_, ?_⟩, ?_⟩
    · intro kv hkv
      rcases List.mem_map.mp hkv with ⟨kv0, hkv0, heq⟩
      have := hP kv0 hkv0
      by_cases hkk : kv0.1 = k
      · rw [if_pos hkk] at heq
        rw [← heq]
        exact this
      · rw [if_neg hkk] at heq
        rw [← heq]
        exact this
    · exact keysNodup_setActive k hK
    · intro k2 r2 hne
      exact mem_setActiveBackup_of_ne hne
  · have hres : (processFlow st k r).1
        = ⟨decPathLoads st.G (activePath r), eraseFlow st.table k⟩ := by
      simp [processFlow, hcond]
    rw [hres]
    refine ⟨⟨conservation_dec_erase hC hK hmem hap, ?_, keysNodup_erase k hK⟩, ?_⟩
    · intro kv hkv
      exact hP kv (List.mem_filter.mp hkv).1
    · intro k2 r2 hne
      exact mem_eraseFlow_of_ne hne

theorem foldProcess_inv :
    ∀ (l : FlowTable) (acc : State × List Outcome),
      Inv acc.1 → (∀ kv ∈ l, kv ∈ acc.1.table) → (l.map Prod.fst).Nodup →
      Inv (l.foldl
        (fun acc kv =>
          ((processFlow acc.1 kv.1 kv.2).1, acc.2 ++ [(processFlow acc.1 kv.1 kv.2).2]))
        acc).1 := by
  intro l
  induction l with
  | nil => intro acc hI _ _; exact hI
  | cons kv l ih =>
    intro acc hI hsub hnd
    rw [List.foldl_cons]
    have hmem : (kv.1, kv.2) ∈ acc.1.table := hsub kv (List.mem_cons_self kv l)
    have hpf := processFlow_inv hI hmem
    apply ih
    · exact hpf.1
    · intro kv2 hkv2
      have hne : kv2.1 ≠ kv.1 := by
        intro heq
        have : kv.1 ∉ l.map Prod.fst := (List.nodup_cons.mp hnd).1
        exact this (List.mem_map.mpr ⟨kv2, hkv2, heq⟩)
      have := (hpf.2 kv2.1 kv2.2 hne).mpr (hsub kv2 (List.mem_cons_of_mem kv hkv2))
      exact this
    · exact (List.nodup_cons.mp hnd).2

theorem inv_failLink (st : State) (u v : String) (hI : Inv st) :
    Inv (failLink st u v).1 := by
  obtain ⟨hC, hP, hK⟩ := hI
  unfold failLink
  by_cases h : st.G.hasEdge u v = true
  · rw [if_pos h]
    dsimp only
    apply foldProcess_inv
    · refine ⟨?_, hP, hK⟩
      intro el hel
      exact hC el (List.mem_of_mem_filter hel)
    · intro kv hkv
      exact (List.mem_filter.mp hkv).1
    · exact List.Sublist.nodup (List.Sublist.map Prod.fst (List.filter_sublist st.table)) hK
  · rw [if_neg h]
    exact ⟨hC, hP, hK⟩

theorem inv_removeFlow (st : State) (s d : String) (hI : Inv st) :
    Inv (removeFlow st s d) := by
  obtain ⟨hC, hP, hK⟩ := hI
  unfold removeFlow
  cases hlk : lookupFlow st.table (s, d) with
  | none => exact ⟨hC, hP, hK⟩
  | some r =>
    have hmem := lookupFlow_mem hlk
    have hrecnd := hP ((s, d), r) hmem
    refine ⟨conservation_dec_erase hC hK hmem
      (activePath_nodup hrecnd.1 hrecnd.2), ?_, keysNodup_erase _ hK⟩
    intro kv hkv
    exact hP kv (List.mem_filter.mp hkv).1

/-! ### The simple-path enumeration: soundness, completeness, order -/

theorem mem_neighbors {G : Graph} {u n : String} :
    n ∈ G.neighbors u ↔ G.hasEdge u n = true := by
  simp only [Graph.neighbors, List.mem_flatMap, Graph.hasEdge, List.any_eq_true]
  constructor
  · rintro ⟨el, hel, hmem⟩
    refine ⟨el, hel, ?_⟩
    by_cases h1 : el.1.1 = u
    · rw [if_pos h1] at hmem
      have hn : n = el.1.2 := by simpa using hmem
      simp [sameEdge, h1, hn]
    · rw [if_neg h1] at hmem
      by_cases h2 : el.1.2 = u
      · rw [if_pos h2] at hmem
        have hn : n = el.1.1 := by simpa using hmem
        simp [sameEdge, h2, hn]
      · rw [if_neg h2] at hmem
        simp at hmem
  · rintro ⟨el, hel, hse⟩
    refine ⟨el, hel, ?_⟩
    have hd : (el.1.1 = u ∧ el.1.2 = n) ∨ (el.1.1 = n ∧ el.1.2 = u) := by
      simpa [sameEdge] using hse
    rcases hd with ⟨h1, h2⟩ | ⟨h1, h2⟩
    · rw [if_pos h1]
      simp [h2]
    · by_cases h3 : el.1.1 = u
      · rw [if_pos h3]
        have : n = el.1.2 := (h2.trans (h3.symm.trans h1)).symm
        simp [this]
      · rw [if_neg h3, if_pos h2]
        simp [h1]

theorem dfsPaths_sound {G : Graph} {dst : String} :
    ∀ (fuel : Nat) (cur : String) (visited : List String) (q : List String),
      q ∈ dfsPaths G dst fuel cur visited →
      q.head? = some cur ∧ q.getLast? = some dst ∧ q.Nodup ∧
        (∀ x ∈ q, x = cur ∨ x ∉ visited) ∧
        ∀ e ∈ pathPairs q, G.hasEdge e.1 e.2 = true := by
  intro fuel
  induction fuel with
  | zero =>
    intro cur visited q hq
    unfold dfsPaths at hq
    by_cases h : cur = dst
    · rw [if_pos h] at hq
      have hq2 : q = [cur] := by simpa using hq
      subst hq2
      exact ⟨rfl, by simp [h], by simp, by simp, by simp [pathPairs]⟩
    · rw [if_neg h] at hq
      cases hq
  | succ fuel ih =>
    intro cur visited q hq
    unfold dfsPaths at hq
    by_cases h : cur = dst
    · rw [if_pos h] at hq
      have hq2 : q = [cur] := by simpa using hq
      subst hq2
      exact ⟨rfl, by simp [h], by simp, by simp, by simp [pathPairs]⟩
    · rw [if_neg h] at hq
      rcases List.mem_flatMap.mp hq with ⟨n, hn, hqn⟩
      rcases List.mem_map.mp hqn with ⟨q2, hq2, heq⟩
      rcases List.mem_filter.mp hn with ⟨hnbr, hnvis⟩
      have hnvis' : n ∉ cur :: visited := by simpa using hnvis
      obtain ⟨hhead, hlast, hnd, havoid, hedges⟩ := ih n (cur :: visited) q2 hq2
      rcases List.head?_eq_some_iff.mp hhead with ⟨rest, hrest⟩
      subst heq
      refine ⟨rfl, ?_, ?_, ?_, ?_⟩
      · rw [hrest, List.getLast?_cons_cons, ← hrest]
        exact hlast
      · rw [List.nodup_cons]
        refine ⟨?_, hnd⟩
        intro hcur
        rcases havoid cur hcur with h1 | h1
        · exact hnvis' (h1 ▸ List.mem_cons_self cur visited)
        · exact h1 (List.mem_cons_self cur visited)
      · intro x hx
        rcases List.mem_cons.mp hx with h1 | h1
        · exact Or.inl h1
        · rcases havoid x h1 with h2 | h2
          · subst h2
            exact Or.inr fun hv => hnvis' (List.mem_cons_of_mem cur hv)
          · exact Or.inr fun hv => h2 (List.mem_cons_of_mem cur hv)
      · intro e he
        rw [hrest, pathPairs_cons_cons] at he
        rcases List.mem_cons.mp he with h1 | h1
        · subst h1
          exact mem_neighbors.mp hnbr
        · apply hedges
          rw [hrest]
          exact h1

theorem dfsPaths_complete {G : Graph} {dst : String} :
    ∀ (fuel : Nat) (cur : String) (visited : List String) (q : List String),
      q.head? = some cur → q.getLast? = some dst → q.Nodup →
      (∀ e ∈ pathPairs q, G.hasEdge e.1 e.2 = true) →
      (∀ x ∈ q, x ∉ visited) → q.length ≤ fuel + 1 →
      q ∈ dfsPaths G dst fuel cur visited := by
  intro fuel
  induction fuel with
  | zero =>
    intro cur visited q hhead hlast hnd hedges havoid hlen
    rcases List.head?_eq_some_iff.mp hhead with ⟨rest, hrest⟩
    subst hrest
    cases rest with
    | nil =>
      have hcd : cur = dst := by simpa using hlast
      unfold dfsPaths
      rw [if_pos hcd]
      simp
    | cons b rest2 =>
      simp at hlen
  | succ fuel ih =>
    intro cur visited q hhead hlast hnd hedges havoid hlen
    rcases List.head?_eq_some_iff.mp hhead with ⟨rest, hrest⟩
    subst hrest
    cases rest with
    | nil =>
      have hcd : cur = dst := by simpa using hlast
      unfold dfsPaths
      rw [if_pos hcd]
      simp
    | cons n rest2 =>
      have hlast2 : (n :: rest2).getLast? = some dst := by
        rw [← List.getLast?_cons_cons (a := cur)]
        exact hlast
      have hne : cur ≠ dst := by
        intro hcd
        have hdmem : dst ∈ n :: rest2 := by
          rcases List.getLast?_eq_some_iff.mp hlast2 with ⟨ys, hys⟩
          rw [hys]
          simp
        exact (List.nodup_cons.mp hnd).1 (hcd ▸ hdmem)
      unfold dfsPaths
      rw [if_neg hne]
      apply List.mem_flatMap.mpr
      refine ⟨n, ?_, ?_⟩
      · apply List.mem_filter.mpr
        refine ⟨?_, ?_⟩
        · apply mem_neighbors.mpr
          apply hedges (cur, n)
          rw [pathPairs_cons_cons]
          exact List.mem_cons_self _ _
        · have h1 : n ≠ cur := fun h =>
            (List.nodup_cons.mp hnd).1 (h ▸ List.mem_cons_self n rest2)
          have h2 : n ∉ visited :=
            havoid n (List.mem_cons_of_mem cur (List.mem_cons_self n rest2))
          simp [h1, h2]
      · apply List.mem_map.mpr
        refine ⟨n :: rest2, ?_, rfl⟩
        apply ih n (cur :: visited) (n :: rest2) rfl hlast2 (List.nodup_cons.mp hnd).2
        · intro e he
          apply hedges
          rw [pathPairs_cons_cons]
          exact List.mem_cons_of_mem _ he
        · intro x hx hmem
          rcases List.mem_cons.mp hmem with h1 | h1
          · exact (List.nodup_cons.mp hnd).1 (h1 ▸ hx)
          · exact havoid x (List.mem_cons_of_mem cur hx) h1
        · have : (cur :: n :: rest2).length ≤ fuel + 1 + 1 := hlen
          simp at this ⊢
          omega

theorem pair_endpoints_mem {G : Graph} {e : String × String}
    (h : G.hasEdge e.1 e.2 = true) : e.1 ∈ G.allNodes ∧ e.2 ∈ G.allNodes := by
  rcases List.any_eq_true.mp h with ⟨el, hel, hse⟩
  have hd : (el.1.1 = e.1 ∧ el.1.2 = e.2) ∨ (el.1.1 = e.2 ∧ el.1.2 = e.1) := by
    simpa [sameEdge] using hse
  have h1 : el.1.1 ∈ G.allNodes := by
    apply List.mem_append_right
    apply List.mem_flatMap.mpr
    exact ⟨el, hel, by simp⟩
  have h2 : el.1.2 ∈ G.allNodes := by
    apply List.mem_append_right
    apply List.mem_flatMap.mpr
    exact ⟨el, hel, by simp⟩
  rcases hd with ⟨ha, hb⟩ | ⟨ha, hb⟩
  · exact ⟨ha ▸ h1, hb ▸ h2⟩
  · exact ⟨hb ▸ h2, ha ▸ h1⟩

theorem mem_pathPairs_cover :
    ∀ (q : List String), 2 ≤ q.length → ∀ x ∈ q, ∃ e ∈ pathPairs q, x = e.1 ∨ x = e.2 := by
  intro q
  induction q with
  | nil => simp
  | cons a q ih =>
    intro hlen x hx
    cases q with
    | nil => simp at hlen
    | cons b l =>
      rcases List.mem_cons.mp hx with h1 | h1
      · exact ⟨(a, b), by rw [pathPairs_cons_cons]; exact List.mem_cons_self _ _,
          Or.inl (by simp [h1])⟩
      · cases l with
        | nil =>
          have hxb : x = b := by simpa using h1
          exact ⟨(a, b), by rw [pathPairs_cons_cons]; exact List.mem_cons_self _ _,
            Or.inr (by simp [hxb])⟩
        | cons c l2 =>
          rcases ih (by simp) x h1 with ⟨e, he, hxe⟩
          exact ⟨e, by rw [pathPairs_cons_cons]; exact List.mem_cons_of_mem _ he, hxe⟩

theorem simplePath_length_le {G : Graph} {q : List String} (hnd : q.Nodup)
    (hedges : ∀ e ∈ pathPairs q, G.hasEdge e.1 e.2 = true) :
    q.length ≤ G.allNodes.length + 1 := by
  rcases le_or_lt q.length 1 with h | h
  · omega
  · have hsub : ∀ x ∈ q, x ∈ G.allNodes := by
      intro x hx
      rcases mem_pathPairs_cover q (by omega) x hx with ⟨e, he, hxe⟩
      have hends := pair_endpoints_mem (hedges e he)
      rcases hxe with h1 | h1
      · rw [h1]; exact hends.1
      · rw [h1]; exact hends.2
    have := List.Subperm.length_le (List.Nodup.subperm hnd hsub)
    omega

theorem mem_insertByLen {p q : List String} :
    ∀ {l : List (List String)}, q ∈ insertByLen p l ↔ q = p ∨ q ∈ l := by
  intro l
  induction l with
  | nil => simp [insertByLen]
  | cons a l ih =>
    unfold insertByLen
    by_cases h : p.length < a.length
    · rw [if_pos h]
      simp [List.mem_cons]
    · rw [if_neg h]
      simp [List.mem_cons, ih]
      tauto

theorem mem_sortByLen {q : List String} :
    ∀ {l : List (List String)}, q ∈ sortByLen l ↔ q ∈ l := by
  intro l
  induction l with
  | nil => simp [sortByLen]
  | cons a l ih =>
    show q ∈ insertByLen a (sortByLen l) ↔ _
    rw [mem_insertByLen]
    rw [ih]
    exact (List.mem_cons).symm

theorem sorted_insertByLen {p : List String} :
    ∀ {l : List (List String)}, l.Pairwise (fun a b => a.length ≤ b.length) →
      (insertByLen p l).Pairwise (fun a b => a.length ≤ b.length) := by
  intro l
  induction l with
  | nil => intro _; simp [insertByLen]
  | cons a l ih =>
    intro h
    rcases List.pairwise_cons.mp h with ⟨ha, hl⟩
    unfold insertByLen
    by_cases hlt : p.length < a.length
    · rw [if_pos hlt]
      refine List.pairwise_cons.mpr ⟨?_, h⟩
      intro b hb
      rcases List.mem_cons.mp hb with h1 | h1
      · rw [h1]; omega
      · have := ha b h1; omega
    · rw [if_neg hlt]
      refine List.pairwise_cons.mpr ⟨?_, ih hl⟩
      intro b hb
      rcases mem_insertByLen.mp hb with h1 | h1
      · rw [h1]; omega
      · exact ha b h1

theorem sorted_sortByLen :
    ∀ (l : List (List String)), (sortByLen l).Pairwise (fun a b => a.length ≤ b.length) := by
  intro l
  induction l with
  | nil => simp [sortByLen]
  | cons a l ih => exact sorted_insertByLen ih

theorem mem_shortestSimplePaths {G : Graph} {s d : String} {q : List String} :
    q ∈ shortestSimplePaths G s d ↔ IsSimplePath G s d q := by
  unfold shortestSimplePaths
  rw [mem_sortByLen]
  constructor
  · intro hq
    obtain ⟨h1, h2, h3, _, h5⟩ := dfsPaths_sound _ s [] q hq
    exact ⟨h1, h2, h3, h5⟩
  · rintro ⟨h1, h2, h3, h4⟩
    apply dfsPaths_complete _ s [] q h1 h2 h3 h4 (by simp)
    have := simplePath_length_le h3 h4
    omega

theorem head_sorted_min {l : List (List String)} {p : List String}
    (hs : l.Pairwise (fun a b => a.length ≤ b.length)) (hhead : l.head? = some p) :
    ∀ q ∈ l, p.length ≤ q.length := by
  rcases List.head?_eq_some_iff.mp hhead with ⟨rest, hrest⟩
  subst hrest
  intro q hq
  rcases List.mem_cons.mp hq with h | h
  · rw [h]
  · exact (List.pairwise_cons.mp hs).1 q h

theorem pyMinBy_mem (cost : List String → Nat) :
    ∀ (xs : List (List String)) (x : List String),
      pyMinBy cost x xs = x ∨ pyMinBy cost x xs ∈ xs := by
  intro xs
  induction xs with
  | nil => intro x; exact Or.inl rfl
  | cons a xs ih =>
    intro x
    have hstep : pyMinBy cost x (a :: xs)
        = pyMinBy cost (if cost a < cost x then a else x) xs := rfl
    rw [hstep]
    by_cases hc : cost a < cost x
    · rw [if_pos hc]
      rcases ih a with h | h
      · rw [h]; exact Or.inr (List.mem_cons_self a xs)
      · exact Or.inr (List.mem_cons_of_mem a h)
    · rw [if_neg hc]
      rcases ih x with h | h
      · exact Or.inl h
      · exact Or.inr (List.mem_cons_of_mem a h)

theorem pyMinBy_spec (cost : List String → Nat) :
    ∀ (xs : List (List String)) (x : List String),
      ∃ l1 l2, x :: xs = l1 ++ pyMinBy cost x xs :: l2 ∧
        (∀ q ∈ x :: xs, cost (pyMinBy cost x xs) ≤ cost q) ∧
        ∀ q ∈ l1, cost (pyMinBy cost x xs) < cost q := by
  intro xs
  induction xs with
  | nil =>
    intro x
    refine ⟨[], [], rfl, ?_, by simp⟩
    intro q hq
    have : q = x := by simpa using hq
    rw [this]
    simp [pyMinBy]
  | cons a xs ih =>
    intro x
    have hstep : pyMinBy cost x (a :: xs)
        = pyMinBy cost (if cost a < cost x then a else x) xs := rfl
    rw [hstep]
    by_cases hc : cost a < cost x
    · rw [if_pos hc]
      obtain ⟨l1, l2, hsplit, hmin, hstrict⟩ := ih a
      have hma : cost (pyMinBy cost a xs) ≤ cost a := hmin a (List.mem_cons_self a xs)
      refine ⟨x :: l1, l2, ?_, ?_, ?_⟩
      · rw [List.cons_append, ← hsplit]
      · intro q hq
        rcases List.mem_cons.mp hq with h1 | h1
        · rw [h1]; omega
        · exact hmin q h1
      · intro q hq
        rcases List.mem_cons.mp hq with h1 | h1
        · rw [h1]; omega
        · exact hstrict q h1
    · rw [if_neg hc]
      obtain ⟨l1, l2, hsplit, hmin, hstrict⟩ := ih x
      cases l1 with
      | nil =>
        have hm : pyMinBy cost x xs = x ∧ l2 = xs := by
          rw [List.nil_append] at hsplit
          injection hsplit with h1 h2
          exact ⟨h1.symm, h2.symm⟩
        refine ⟨[], a :: xs, ?_, ?_, by simp⟩
        · rw [hm.1]
          rfl
        · intro q hq
          rw [hm.1]
          rcases List.mem_cons.mp hq with h1 | h1
          · rw [h1]
          · rcases List.mem_cons.mp h1 with h2 | h2
            · rw [h2]; omega
            · have := hmin q (List.mem_cons_of_mem x h2)
              rw [hm.1] at this
              exact this
      | cons y l1r =>
        have hy : y = x ∧ xs = l1r ++ pyMinBy cost x xs :: l2 := by
          rw [List.cons_append] at hsplit
          injection hsplit with h1 h2
          exact ⟨h1.symm, h2⟩
        have hmx : cost (pyMinBy cost x xs) < cost x := by
          have := hstrict y (List.mem_cons_self y l1r)
          rw [hy.1] at this
          exact this
        refine ⟨x :: a :: l1r, l2, ?_, ?_, ?_⟩
        · rw [List.cons_append, List.cons_append, ← hy.2]
        · intro q hq
          rcases List.mem_cons.mp hq with h1 | h1
          · rw [h1]; omega
          · rcases List.mem_cons.mp h1 with h2 | h2
            · rw [h2]; omega
            · exact hmin q (List.mem_cons_of_mem x h2)
        · intro q hq
          rcases List.mem_cons.mp hq with h1 | h1
          · rw [h1]; omega
          · rcases List.mem_cons.mp h1 with h2 | h2
            · rw [h2]; omega
            · exact hstrict q (List.mem_cons_of_mem y h2)

/-! ### Path-computation results are simple paths -/

theorem computePath_some_mem {G : Graph} {s d : String} {pri crit : Bool}
    {p : List String} (h : computePath G s d pri crit = .ok (some p)) :
    p ∈ shortestSimplePaths G s d := by
  unfold computePath at h
  by_cases hn : s ∈ G.nodes ∧ d ∈ G.nodes
  · rw [if_pos hn] at h
    cases hssp : shortestSimplePaths G s d with
    | nil =>
      rw [hssp] at h
      simp at h
    | cons p0 rest =>
      rw [hssp] at h
      cases pri with
      | false =>
        simp only [Bool.false_eq_true, if_false] at h
        by_cases hdeg : ((p0 :: rest).any (fun q => (pathPairs q).isEmpty)) = true
        · rw [if_pos hdeg] at h
          simp at h
        · rw [if_neg hdeg] at h
          simp only [Except.ok.injEq, Option.some.injEq] at h
          rw [← h]
          rcases pyMinBy_mem (pathCost G) rest p0 with h2 | h2
          · rw [h2]
            exact List.mem_cons_self _ _
          · exact List.mem_cons_of_mem _ h2
      | true =>
        simp only [if_true, Except.ok.injEq, Option.some.injEq] at h
        rw [← h]
        exact List.mem_cons_self _ _
  · rw [if_neg hn] at h
    simp at h

theorem nxShortestPathCaught_some {G : Graph} {s d : String} {p : List String}
    (h : nxShortestPathCaught G s d = .ok (some p)) :
    p ∈ shortestSimplePaths G s d := by
  unfold nxShortestPathCaught at h
  by_cases hn : s ∈ G.nodes ∧ d ∈ G.nodes
  · rw [if_pos hn] at h
    cases hssp : shortestSimplePaths G s d with
    | nil =>
      rw [hssp] at h
      simp at h
    | cons p0 rest =>
      rw [hssp] at h
      simp only [Except.ok.injEq, Option.some.injEq] at h
      rw [← h]
      exact List.mem_cons_self _ _
  · rw [if_neg hn] at h
    simp at h

theorem computeBackupPath_some_nodup {G : Graph} {p b : List String}
    (h : computeBackupPath G p = .ok (some b)) : b.Nodup :=
  (mem_shortestSimplePaths.mp (nxShortestPathCaught_some h)).2.2.1

/-! ### Invariance under `inject_flow` -/

theorem pathsNodup_addFlow {st : State} {s d : String} {p : List String}
    {pri crit : Bool} {bk : Option (List String)}
    (hP : PathsNodup st) (hfresh : lookupFlow st.table (s, d) = none)
    (hp : p.Nodup) (hbk : ∀ b, bk = some b → b.Nodup) :
    PathsNodup (addFlow st s d p pri crit bk) := by
  intro kv hkv
  simp only [addFlow] at hkv
  rw [insertFlow_fresh _ (lookupFlow_eq_none_iff.mp hfresh)] at hkv
  rcases List.mem_append.mp hkv with h | h
  · exact hP kv h
  · have hkv2 : kv = ((s, d), ⟨pri, crit, p, bk, .primary⟩) := by simpa using h
    rw [hkv2]
    exact ⟨hp, hbk⟩

theorem keysNodup_addFlow {st : State} {s d : String} {p : List String}
    {pri crit : Bool} {bk : Option (List String)}
    (hK : KeysNodup st.table) (hfresh : lookupFlow st.table (s, d) = none) :
    KeysNodup (addFlow st s d p pri crit bk).table := by
  simp only [addFlow]
  rw [insertFlow_fresh _ (lookupFlow_eq_none_iff.mp hfresh)]
  unfold KeysNodup
  rw [List.map_append, List.nodup_append]
  refine ⟨hK, by simp, ?_⟩
  intro a ha hb
  have ha2 : a = (s, d) := by simpa using hb
  rcases List.mem_map.mp ha with ⟨kv, hkv, heq⟩
  exact lookupFlow_eq_none_iff.mp hfresh kv hkv (heq.trans ha2)

theorem inv_injectFlow {st st2 : State} {s d : String} {pri crit : Bool}
    (hI : Inv st) (hfresh : lookupFlow st.table (s, d) = none)
    (hok : injectFlow st s d pri crit = .ok st2) : Inv st2 := by
  obtain ⟨hC, hP, hK⟩ := hI
  unfold injectFlow at hok
  cases hcp : computePath st.G s d pri crit with
  | error e =>
    rw [hcp] at hok
    simp at hok
  | ok op =>
    rw [hcp] at hok
    cases op with
    | none =>
      simp only [Except.ok.injEq] at hok
      rw [← hok]
      exact ⟨hC, hP, hK⟩
    | some p =>
      dsimp only at hok
      have hpnd : p.Nodup :=
        (mem_shortestSimplePaths.mp (computePath_some_mem hcp)).2.2.1
      cases hbk : (if crit then computeBackupPath st.G p else .ok none) with
      | error e =>
        rw [hbk] at hok
        simp at hok
      | ok bk =>
        rw [hbk] at hok
        simp only [Except.ok.injEq] at hok
        rw [← hok]
        have hbnd : ∀ b, bk = some b → b.Nodup := by
          intro b hb
          cases crit with
          | false =>
            simp only [Bool.false_eq_true, if_false, Except.ok.injEq] at hbk
            rw [← hbk] at hb
            cases hb
          | true =>
            simp only [if_true] at hbk
            rw [hb] at hbk
            exact computeBackupPath_some_nodup hbk
        exact ⟨conservation_addFlow hC hfresh hpnd,
          pathsNodup_addFlow hP hfresh hpnd hbnd,
          keysNodup_addFlow hK hfresh⟩

/-! ### The invariant holds in every reachable state -/

theorem inv_goodStep {st st2 : State} (h : GoodStep st st2) (hI : Inv st) : Inv st2 := by
  cases h with
  | inject _ _ _ _ _ hfresh hok => exact inv_injectFlow hI hfresh hok
  | remove _ _ => exact inv_removeFlow _ _ _ hI
  | fail _ _ => exact inv_failLink _ _ _ hI

theorem inv_reachable {st0 st : State}
    (h : Relation.ReflTransGen GoodStep st0 st) (hI : Inv st0) : Inv st := by
  induction h with
  | refl => exact hI
  | tail _ hstep ih => exact inv_goodStep hstep ih

/-! ### Lookup behaviour of the table updates -/

theorem lookupFlow_cons_self {t : FlowTable} {kv : (String × String) × FlowRec}
    {k : String × String} (h : kv.1 = k) : lookupFlow (kv :: t) k = some kv.2 := by
  unfold lookupFlow
  rw [List.find?_cons_of_pos _ (by simp [h])]
  rfl

theorem lookupFlow_cons_ne {t : FlowTable} {kv : (String × String) × FlowRec}
    {k : String × String} (h : kv.1 ≠ k) : lookupFlow (kv :: t) k = lookupFlow t k := by
  unfold lookupFlow
  rw [List.find?_cons_of_neg _ (by simp [h])]

theorem lookupFlow_erase_ne {t : FlowTable} {k k2 : String × String} (h : k ≠ k2) :
    lookupFlow (eraseFlow t k2) k = lookupFlow t k := by
  induction t with
  | nil => rfl
  | cons kv t ih =>
    by_cases hk : kv.1 = k2
    · have he : eraseFlow (kv :: t) k2 = eraseFlow t k2 := by
        simp [eraseFlow, List.filter_cons, hk]
      rw [he, ih, lookupFlow_cons_ne (by rw [hk]; exact fun hh => h hh.symm)]
    · have he : eraseFlow (kv :: t) k2 = kv :: eraseFlow t k2 := by
        simp [eraseFlow, List.filter_cons, hk]
      rw [he]
      by_cases hkk : kv.1 = k
      · rw [lookupFlow_cons_self hkk, lookupFlow_cons_self hkk]
      · rw [lookupFlow_cons_ne hkk, lookupFlow_cons_ne hkk, ih]

theorem lookupFlow_setActive_pred (t : FlowTable) (k k2 : String × String) :
    lookupFlow (setActiveBackup t k2) k
      = (t.find? (fun kv => decide (kv.1 = k))).map
          (fun kv => ((if kv.1 = k2 then (kv.1, { kv.2 with active := Active.backup })
            else kv)).2) := by
  unfold lookupFlow setActiveBackup
  rw [List.find?_map]
  have hp : (fun kv : (String × String) × FlowRec =>
        decide ((if kv.1 = k2 then (kv.1, { kv.2 with active := Active.backup })
          else kv).1 = k))
      = fun kv : (String × String) × FlowRec => decide (kv.1 = k) := by
    funext kv
    by_cases hkc : kv.1 = k2 <;> simp [hkc]
  simp only [Function.comp_def]
  rw [hp, Option.map_map]
  rfl

theorem lookupFlow_setActive_ne {t : FlowTable} {k k2 : String × String} (h : k ≠ k2) :
    lookupFlow (setActiveBackup t k2) k = lookupFlow t k := by
  rw [lookupFlow_setActive_pred]
  unfold lookupFlow
  cases hf : t.find? (fun kv => decide (kv.1 = k)) with
  | none => rfl
  | some kv =>
    have hk : kv.1 = k := by simpa using List.find?_some hf
    have hne : kv.1 ≠ k2 := by rw [hk]; exact h
    simp [hne]

theorem lookupFlow_setActive_self {t : FlowTable} {k : String × String} :
    lookupFlow (setActiveBackup t k) k
      = (lookupFlow t k).map (fun r => { r with active := .backup }) := by
  rw [lookupFlow_setActive_pred]
  unfold lookupFlow
  cases hf : t.find? (fun kv => decide (kv.1 = k)) with
  | none => rfl
  | some kv =>
    have hk : kv.1 = k := by simpa using List.find?_some hf
    simp [hk]

theorem lookupFlow_insertFlow_self (t : FlowTable) (k : String × String) (r : FlowRec) :
    lookupFlow (insertFlow t k r) k = some r := by
  unfold insertFlow
  by_cases h : t.any (fun kv => decide (kv.1 = k)) = true
  · rw [if_pos h]
    induction t with
    | nil => simp at h
    | cons kv t ih =>
      by_cases hk : kv.1 = k
      · rw [List.map_cons, if_pos hk]
        exact lookupFlow_cons_self rfl
      · rw [List.map_cons, if_neg hk]
        rw [lookupFlow_cons_ne hk]
        apply ih
        rw [List.any_cons] at h
        rcases (Bool.or_eq_true _ _).mp h with h1 | h1
        · exact absurd (by simpa using h1) hk
        · exact h1
  · rw [if_neg h]
    have hnone : lookupFlow t k = none := by
      rw [lookupFlow_eq_none_iff]
      intro kv hkv heq
      exact h (List.any_eq_true.mpr ⟨kv, hkv, by simp [heq]⟩)
    unfold lookupFlow at hnone ⊢
    rw [List.find?_append]
    have hfind : t.find? (fun kv => decide (kv.1 = k)) = none := by
      cases hf : t.find? (fun kv => decide (kv.1 = k)) with
      | none => rfl
      | some kv => rw [hf] at hnone; simp at hnone
    rw [hfind]
    simp [List.find?]

theorem mem_lookup_unique {t : FlowTable} {k : String × String} {r r2 : FlowRec}
    (hnd : KeysNodup t) (hmem : (k, r2) ∈ t) (hlk : lookupFlow t k = some r) :
    r2 = r := by
  induction t with
  | nil => cases hmem
  | cons kv t ih =>
    by_cases hk : kv.1 = k
    · rw [lookupFlow_cons_self hk] at hlk
      rcases List.mem_cons.mp hmem with h | h
      · rw [← h] at hlk
        simpa using hlk
      · exact absurd hk.symm (keys_not_mem_of_nodup hnd (k, r2) h)
    · rw [lookupFlow_cons_ne hk] at hlk
      rcases List.mem_cons.mp hmem with h | h
      · exact absurd (congrArg Prod.fst h.symm) hk
      · exact ih (keysNodup_of_cons hnd) h hlk

/-! ### `fail_link` never evicts a critical flow holding a backup -/

theorem foldProcess_keepCritical {k : String × String} {r : FlowRec}
    (hcrit : r.critical = true) (htr : truthy r.backup = true) :
    ∀ (l : FlowTable) (acc : State × List Outcome) (r1 : FlowRec),
      (l.map Prod.fst).Nodup →
      lookupFlow acc.1.table k = some r1 →
      r1.critical = r.critical → r1.primary = r.primary → r1.backup = r.backup →
      r1.priority = r.priority →
      (r1.active = r.active ∨ r1.active = .backup) →
      (∀ kv ∈ l, kv.1 = k → kv.2 = r1) →
      ∃ r2, lookupFlow ((l.foldl
          (fun acc kv =>
            ((processFlow acc.1 kv.1 kv.2).1, acc.2 ++ [(processFlow acc.1 kv.1 kv.2).2]))
          acc).1).table k = some r2 ∧
        r2.critical = r.critical ∧ r2.primary = r.primary ∧ r2.backup = r.backup ∧
        r2.priority = r.priority ∧ (r2.active = r.active ∨ r2.active = .backup) := by
  intro l
  induction l with
  | nil =>
    intro acc r1 _ hlk h1 h2 h3 h4 h5 _
    exact ⟨r1, hlk, h1, h2, h3, h4, h5⟩
  | cons kv l ih =>
    intro acc r1 hnd hlk h1 h2 h3 h4 h5 hsnap
    rw [List.foldl_cons]
    by_cases hkk : kv.1 = k
    · have hkv2 : kv.2 = r1 := hsnap kv (List.mem_cons_self kv l) hkk
      have hcond : (kv.2.critical && truthy kv.2.backup) = true := by
        rw [hkv2, h1, hcrit, h3, htr]
        rfl
      have htab : (processFlow acc.1 kv.1 kv.2).1.table
          = setActiveBackup acc.1.table kv.1 := by
        simp [processFlow, hcond]
      apply ih _ { r1 with active := .backup } (List.nodup_cons.mp hnd).2
      · rw [htab, hkk, lookupFlow_setActive_self, hlk]
        rfl
      · exact h1
      · exact h2
      · exact h3
      · exact h4
      · exact Or.inr rfl
      · intro kv2 hkv2mem hkeq
        exfalso
        apply (List.nodup_cons.mp hnd).1
        rw [hkk]
        rw [← hkeq]
        exact List.mem_map.mpr ⟨kv2, hkv2mem, rfl⟩
    · have htab : lookupFlow (processFlow acc.1 kv.1 kv.2).1.table k
          = lookupFlow acc.1.table k := by
        by_cases hcond : (kv.2.critical && truthy kv.2.backup) = true
        · have ht : (processFlow acc.1 kv.1 kv.2).1.table
              = setActiveBackup acc.1.table kv.1 := by
            simp [processFlow, hcond]
          rw [ht]
          exact lookupFlow_setActive_ne fun hh => hkk hh.symm
        · have ht : (processFlow acc.1 kv.1 kv.2).1.table
              = eraseFlow acc.1.table kv.1 := by
            simp [processFlow, hcond]
          rw [ht]
          exact lookupFlow_erase_ne fun hh => hkk hh.symm
      apply ih _ r1 (List.nodup_cons.mp hnd).2
      · rw [htab]
        exact hlk
      · exact h1
      · exact h2
      · exact h3
      · exact h4
      · exact h5
      · intro kv2 hkv2mem hkeq
        exact hsnap kv2 (List.mem_cons_of_mem kv hkv2mem) hkeq

theorem failLink_keeps_critical {st : State} {u v : String} {k : String × String}
    {r : FlowRec} (hK : KeysNodup st.table) (hlk : lookupFlow st.table k = some r)
    (hcrit : r.critical = true) (htr : truthy r.backup = true) :
    ∃ r2, lookupFlow (failLink st u v).1.table k = some r2 ∧
      r2.critical = true ∧ r2.primary = r.primary ∧ r2.backup = r.backup ∧
      r2.priority = r.priority ∧ (r2.active = r.active ∨ r2.active = .backup) := by
  unfold failLink
  by_cases h : st.G.hasEdge u v = true
  · rw [if_pos h]
    dsimp only
    have hmain := foldProcess_keepCritical hcrit htr
      (st.table.filter (fun kv => isAffected kv.2 u v))
      (⟨st.G.removeEdge u v, st.table⟩, []) r
      (List.Sublist.nodup (List.Sublist.map Prod.fst (List.filter_sublist st.table)) hK)
      hlk rfl rfl rfl rfl (Or.inl rfl)
      (fun kv hkv hkeq => by
        have hmem := List.mem_of_mem_filter hkv
        have : (k, kv.2) ∈ st.table := by rw [← hkeq]; exact hmem
        exact mem_lookup_unique hK this hlk)
    rcases hmain with ⟨r2, hlk2, h1, h2, h3, h4, h5⟩
    exact ⟨r2, hlk2, h1.trans hcrit, h2, h3, h4, h5⟩
  · rw [if_neg h]
    exact ⟨r, hlk, hcrit, rfl, rfl, rfl, Or.inl rfl⟩

/-! ### The transient copy in `compute_backup_path` -/

theorem hasEdge_congr {g : Graph} {x y u v : String}
    (h : sameEdge (x, y) (u, v) = true) : g.hasEdge x y = g.hasEdge u v := by
  rw [Bool.eq_iff_iff]
  unfold Graph.hasEdge
  simp only [List.any_eq_true]
  constructor
  · rintro ⟨el, hel, hse⟩
    exact ⟨el, hel, sameEdge_trans hse h⟩
  · rintro ⟨el, hel, hse⟩
    have hsymm : sameEdge (u, v) (x, y) = true := by
      rw [sameEdge_symm]; exact h
    exact ⟨el, hel, sameEdge_trans hse hsymm⟩

theorem hasEdge_removeEdge {g : Graph} {u v x y : String}
    (h : (g.removeEdge u v).hasEdge x y = true) :
    g.hasEdge x y = true ∧ sameEdge (x, y) (u, v) = false := by
  unfold Graph.hasEdge Graph.removeEdge at h
  rcases List.any_eq_true.mp h with ⟨el, hel, hse⟩
  rcases List.mem_filter.mp hel with ⟨hmem, hne⟩
  refine ⟨hasEdge_of_mem hmem hse, ?_⟩
  cases hc : sameEdge (x, y) (u, v)
  · rfl
  · exfalso
    have h1 : sameEdge el.1 (u, v) = true := sameEdge_trans hse hc
    simp [h1] at hne

theorem removeEdges_aux_hasEdge (qs : List (String × String)) :
    ∀ (g : Graph) {x y : String},
      ((qs.foldl (fun g q => if g.hasEdge q.1 q.2 then g.removeEdge q.1 q.2 else g)
          g).hasEdge x y) = true →
      g.hasEdge x y = true ∧ ∀ e ∈ qs, sameEdge (x, y) e = false := by
  induction qs with
  | nil =>
    intro g x y h
    exact ⟨h, by simp⟩
  | cons q qs ih =>
    intro g x y h
    rw [List.foldl_cons] at h
    by_cases hq : g.hasEdge q.1 q.2 = true
    · rw [if_pos hq] at h
      obtain ⟨h1, h2⟩ := ih (g.removeEdge q.1 q.2) h
      obtain ⟨h3, h4⟩ := hasEdge_removeEdge h1
      refine ⟨h3, ?_⟩
      intro e he
      rcases List.mem_cons.mp he with h5 | h5
      · rw [h5, ← sameEdge_eta]
        exact h4
      · exact h2 e h5
    · rw [if_neg hq] at h
      obtain ⟨h1, h2⟩ := ih g h
      refine ⟨h1, ?_⟩
      intro e he
      rcases List.mem_cons.mp he with h5 | h5
      · subst h5
        cases hc : sameEdge (x, y) (e.1, e.2)
        · rfl
        · exact absurd ((hasEdge_congr hc).symm.trans h1) hq
      · exact h2 e h5

theorem removePathEdges_hasEdge {G : Graph} {p : List String} {x y : String}
    (h : (removePathEdges G p).hasEdge x y = true) :
    G.hasEdge x y = true ∧ ∀ e ∈ pathPairs p, sameEdge (x, y) e = false :=
  removeEdges_aux_hasEdge (pathPairs p) G h

theorem removePathEdges_nodes (G : Graph) (p : List String) :
    (removePathEdges G p).nodes = G.nodes := by
  unfold removePathEdges
  generalize pathPairs p = qs
  induction qs generalizing G with
  | nil => rfl
  | cons q qs ih =>
    rw [List.foldl_cons]
    by_cases hq : G.hasEdge q.1 q.2 = true
    · rw [if_pos hq, ih]
      rfl
    · rw [if_neg hq, ih]

theorem shortestSimplePaths_eq_nil_iff {G : Graph} {s d : String} :
    shortestSimplePaths G s d = [] ↔ ¬∃ q, IsSimplePath G s d q := by
  constructor
  · rintro h ⟨q, hq⟩
    have hm := mem_shortestSimplePaths.mpr hq
    rw [h] at hm
    cases hm
  · intro h
    cases hssp : shortestSimplePaths G s d with
    | nil => rfl
    | cons p rest =>
      exfalso
      apply h
      refine ⟨p, mem_shortestSimplePaths.mp ?_⟩
      rw [hssp]
      exact List.mem_cons_self _ _

/-! ### Claim C1 -/

/-- C1, counterexample to the claim as stated: two `inject_flow` calls on the
same (src, dst) key form a legal operation sequence after which edge (A, B)
carries load 2 while exactly one flow record's active path traverses it, so
"load equals the count of traversing flow records after any sequence of
install/remove/fail-link operations" fails. -/
theorem C1_counterexample :
    injectFlow exInit "A" "B" true false = .ok c1Mid ∧
    injectFlow c1Mid "A" "B" true false = .ok c1Final ∧
    (("A", "B"), 2) ∈ c1Final.G.edges ∧
    edgeFlowCount c1Final.table ("A", "B") = 1 := by
  exact ⟨by decide, by decide, by decide, by decide⟩

/-- C1 (amended): starting from an empty flow table and a topology whose edge
loads are all zero, after any sequence of `inject_flow` on keys not currently
installed, `remove_flow`, and `fail_link` operations, every edge's load is
non-negative and equals exactly the number of flow records whose currently
active path (primary or backup, per the record's active selector) traverses
that edge.  The amendment excludes installs over an already-present key,
which the code lets leak load (see the counterexample). -/
theorem C1_load_conservation {st0 st : State}
    (htable : st0.table = [])
    (hzero : ∀ el ∈ st0.G.edges, el.2 = 0)
    (hreach : Relation.ReflTransGen GoodStep st0 st) :
    ∀ el ∈ st.G.edges, 0 ≤ el.2 ∧ el.2 = edgeFlowCount st.table el.1 := by
  have hI0 : Inv st0 := by
    refine ⟨?_, ?_, ?_⟩
    · intro el hel
      rw [hzero el hel, htable]
      rfl
    · intro kv hkv
      rw [htable] at hkv
      cases hkv
    · unfold KeysNodup
      rw [htable]
      exact List.nodup_nil
  have hI := inv_reachable hreach hI0
  intro el hel
  exact ⟨Nat.zero_le _, hI.1 el hel⟩

/-- C1 witness: the conservation theorem applied to a concrete one-install
run, evaluated at the edge (A, B) carrying load 1. -/
theorem C1_witness :
    0 ≤ 1 ∧ 1 = edgeFlowCount c1Mid.table ("A", "B") :=
  @C1_load_conservation exInit c1Mid rfl (by decide)
    (Relation.ReflTransGen.single
      (GoodStep.inject exInit c1Mid "A" "B" true false (by decide) (by decide)))
    (("A", "B"), 1) (by decide)

/-! ### Claim C5 -/

/-- C5, counterexample to the claim as stated: with destination "B" absent
from the topology, `compute_path` does not return `None`; it raises networkx's
`NodeNotFound` (only `NetworkXNoPath` is caught), i.e. the call terminates
abnormally. -/
theorem C5_counterexample :
    computePath oneNodeG "A" "B" true false = .error .nodeNotFound ∧
    computePath oneNodeG "A" "B" true false ≠ .ok none := by
  exact ⟨by decide, by decide⟩

/-- C5 (amended): `compute_path` returns `None` (a normal failure result)
whenever both endpoints are present and no path exists; when src or dst is
absent from the topology it instead raises an uncaught `NodeNotFound`
exception, modelled as an error result. -/
theorem C5_no_path_none {G : Graph} {s d : String} {pri crit : Bool} :
    (s ∈ G.nodes → d ∈ G.nodes → (¬∃ q, IsSimplePath G s d q) →
      computePath G s d pri crit = .ok none) ∧
    ((s ∉ G.nodes ∨ d ∉ G.nodes) →
      computePath G s d pri crit = .error .nodeNotFound) := by
  constructor
  · intro hs hd hnone
    unfold computePath
    rw [if_pos ⟨hs, hd⟩, shortestSimplePaths_eq_nil_iff.mpr hnone]
  · intro h
    unfold computePath
    rw [if_neg (by tauto)]

/-- C5 witness: a disconnected pair yields `.ok none`; an absent endpoint
yields the uncaught exception. -/
theorem C5_witness :
    computePath ⟨["A", "B"], []⟩ "A" "B" true false = .ok none ∧
    computePath oneNodeG "A" "B" true false = .error .nodeNotFound := by
  constructor
  · apply (C5_no_path_none).1 (by decide) (by decide)
    rintro ⟨q, hq⟩
    have hm := mem_shortestSimplePaths.mpr hq
    rw [(by decide : shortestSimplePaths ⟨["A", "B"], []⟩ "A" "B" = [])] at hm
    exact (List.not_mem_nil q) hm
  · exact (C5_no_path_none).2 (Or.inr (by decide))

/-! ### Claim C6 -/

/-- C6: errors are atomic — an install that fails because no path exists
leaves the topology and flow table unchanged; a removal of a nonexistent
(src, dst) key leaves them unchanged; a link failure on a nonexistent edge is
a no-op on both. -/
theorem C6_error_atomicity {st : State} {s d u v : String} {pri crit : Bool} :
    (computePath st.G s d pri crit = .ok none → injectFlow st s d pri crit = .ok st) ∧
    (lookupFlow st.table (s, d) = none → removeFlow st s d = st) ∧
    (st.G.hasEdge u v = false → failLink st u v = (st, none)) := by
  refine ⟨?_, ?_, ?_⟩
  · intro h
    unfold injectFlow
    rw [h]
  · intro h
    unfold removeFlow
    rw [h]
  · intro h
    unfold failLink
    rw [h]
    simp

/-- C6 witness: the three no-op cases at a concrete state. -/
theorem C6_witness :
    injectFlow noEdgeInit "A" "B" true false = .ok noEdgeInit ∧
    removeFlow noEdgeInit "A" "B" = noEdgeInit ∧
    failLink noEdgeInit "A" "B" = (noEdgeInit, none) :=
  ⟨(@C6_error_atomicity noEdgeInit "A" "B" "A" "B" true false).1 (by decide),
   (@C6_error_atomicity noEdgeInit "A" "B" "A" "B" true false).2.1 (by decide),
   (@C6_error_atomicity noEdgeInit "A" "B" "A" "B" true false).2.2 (by decide)⟩

/-! ### Claim C9 -/

/-- C9: `compute_path` and `compute_backup_path` are free of side effects —
run as state transformers over the controller state they return the live
topology (nodes, edges, loads) and flow table exactly unchanged;
`compute_backup_path` mutates only its transient copy. -/
theorem C9_pure_queries :
    ∀ (st : State) (src dst : String) (pri crit : Bool) (p : List String),
      (∀ r st2, computePathOp st src dst pri crit = .ok (r, st2) →
        st2.G = st.G ∧ st2.table = st.table) ∧
      (∀ r st2, computeBackupPathOp st p = .ok (r, st2) →
        st2.G = st.G ∧ st2.table = st.table) := by
  intro st src dst pri crit p
  constructor
  · intro r st2 h
    unfold computePathOp at h
    cases hc : computePath st.G src dst pri crit with
    | error e =>
      rw [hc] at h
      simp [Except.map] at h
    | ok v =>
      rw [hc] at h
      simp only [Except.map, Except.ok.injEq, Prod.mk.injEq] at h
      rw [← h.2]
      exact ⟨rfl, rfl⟩
  · intro r st2 h
    unfold computeBackupPathOp at h
    cases hc : computeBackupPath st.G p with
    | error e =>
      rw [hc] at h
      simp [Except.map] at h
    | ok v =>
      rw [hc] at h
      simp only [Except.map, Except.ok.injEq, Prod.mk.injEq] at h
      rw [← h.2]
      exact ⟨rfl, rfl⟩

/-- C9 witness: both pure queries evaluated at a concrete state. -/
theorem C9_witness :
    exInit.G = exInit.G ∧ exInit.table = exInit.table :=
  (C9_pure_queries exInit "A" "B" true false ["A", "B"]).1
    (some ["A", "B"]) exInit (by decide)

/-! ### Claim C10 -/

/-- C10: the chosen primary path is independent of the `critical` flag —
`compute_path` gives identical results for both values of `critical`; after
parallel installs differing only in `critical`, the topology (all loads) and
the stored record's priority, primary path and active selector coincide, so
`critical` influences only the stored backup. -/
theorem C10_critical_independent :
    (∀ (G : Graph) (s d : String) (pri c1 c2 : Bool),
      computePath G s d pri c1 = computePath G s d pri c2) ∧
    ∀ (st st2 st2' : State) (s d : String) (pri : Bool),
      injectFlow st s d pri false = .ok st2 → injectFlow st s d pri true = .ok st2' →
      st2.G = st2'.G ∧
        ∀ r r', lookupFlow st2.table (s, d) = some r →
          lookupFlow st2'.table (s, d) = some r' →
          r.primary = r'.primary ∧ r.priority = r'.priority ∧ r.active = r'.active := by
  constructor
  · intro G s d pri c1 c2
    rfl
  · intro st st2 st2' s d pri hok1 hok2
    unfold injectFlow at hok1 hok2
    cases hcp : computePath st.G s d pri false with
    | error e =>
      rw [hcp] at hok1
      simp at hok1
    | ok op =>
      rw [hcp] at hok1
      have hcp2 : computePath st.G s d pri true = Except.ok op := hcp
      rw [hcp2] at hok2
      cases op with
      | none =>
        simp only [Except.ok.injEq] at hok1 hok2
        rw [← hok1, ← hok2]
        refine ⟨rfl, ?_⟩
        intro r r' h1 h2
        rw [h1] at h2
        have hrr : r = r' := by
          injection h2
        rw [hrr]
        exact ⟨rfl, rfl, rfl⟩
      | some pth =>
        have hok1' : addFlow st s d pth pri false none = st2 := by
          simpa using hok1
        cases hbk : computeBackupPath st.G pth with
        | error e =>
          simp [hbk] at hok2
        | ok bk =>
          have hok2' : addFlow st s d pth pri true bk = st2' := by
            simpa [hbk] using hok2
          rw [← hok1', ← hok2']
          refine ⟨rfl, ?_⟩
          intro r r' h1 h2
          simp only [addFlow] at h1 h2
          rw [lookupFlow_insertFlow_self] at h1 h2
          have hr : r = ⟨pri, false, pth, none, .primary⟩ := by simpa using h1.symm
          have hr' : r' = ⟨pri, true, pth, bk, .primary⟩ := by simpa using h2.symm
          rw [hr, hr']
          exact ⟨rfl, rfl, rfl⟩

/-- C10 witness: parallel installs at a concrete state. -/
theorem C10_witness :
    c2S1NonCrit.G = c2S1.G ∧
      ∀ r r', lookupFlow c2S1NonCrit.table ("A", "B") = some r →
        lookupFlow c2S1.table ("A", "B") = some r' →
        r.primary = r'.primary ∧ r.priority = r'.priority ∧ r.active = r'.active :=
  (C10_critical_independent).2 c2Init c2S1NonCrit c2S1 "A" "B" true
    (by decide) (by decide)

/-! ### Claim C2 -/

/-- C2, counterexample to the claim as stated: a critical flow promoted to
its backup is hit by a second failure on the (now active) backup path, yet
`fail_link` does not evict it — the record survives and is reported REROUTED
onto the same broken backup again, because the code checks that a backup is
stored rather than whether the promotion was already used. -/
theorem C2_counterexample :
    injectFlow c2Init "A" "B" true true = .ok c2S1 ∧
    failLink c2S1 "A" "B" = (c2S2, some [.rerouted "A" "B" ["A", "C", "B"]]) ∧
    failLink c2S2 "A" "C" = (c2S3, some [.rerouted "A" "B" ["A", "C", "B"]]) ∧
    lookupFlow c2S3.table ("A", "B") = some c2RecB := by
  exact ⟨by decide, by decide, by decide, by decide⟩

/-- C2 (amended): the active selector never returns from BACKUP to PRIMARY,
but a later failure affecting a critical flow holding a (nonempty) backup
never evicts it: `fail_link` keeps the record with priority, critical,
primary and backup unchanged, the active selector either stays or becomes
BACKUP, and a flow already on its backup stays on it (it is re-reported
REROUTED rather than evicted or given a new backup). -/
theorem C2_single_promotion {st : State} {u v : String} {k : String × String}
    {r : FlowRec} (hK : KeysNodup st.table) (hlk : lookupFlow st.table k = some r)
    (hcrit : r.critical = true) (htr : truthy r.backup = true) :
    ∃ r2, lookupFlow (failLink st u v).1.table k = some r2 ∧
      r2.critical = true ∧ r2.primary = r.primary ∧ r2.backup = r.backup ∧
      r2.priority = r.priority ∧ (r2.active = r.active ∨ r2.active = .backup) ∧
      (r.active = .backup → r2.active = .backup) := by
  obtain ⟨r2, h1, h2, h3, h4, h5, h6⟩ := failLink_keeps_critical hK hlk hcrit htr
  refine ⟨r2, h1, h2, h3, h4, h5, h6, ?_⟩
  intro hact
  rcases h6 with h | h
  · rw [h, hact]
  · exact h

/-- C2 witness: the single-promotion theorem applied at the state where the
flow is already on its backup and the backup path fails. -/
theorem C2_witness :
    ∃ r2, lookupFlow (failLink c2S2 "A" "C").1.table ("A", "B") = some r2 ∧
      r2.critical = true ∧ r2.primary = c2RecB.primary ∧ r2.backup = c2RecB.backup ∧
      r2.priority = c2RecB.priority ∧
      (r2.active = c2RecB.active ∨ r2.active = .backup) ∧
      (c2RecB.active = .backup → r2.active = .backup) :=
  C2_single_promotion (by unfold KeysNodup; decide) (by decide) (by decide) (by decide)

/-! ### Claim C8 -/

/-- C8: installing a flow over an already-present (src, dst) key replaces the
prior record with the new one and increments load along the new primary path,
without decrementing the load contribution of the overwritten record's old
path — every edge's load changes exactly by its count in the new primary's
consecutive pairs, and the table keeps its size. -/
theorem C8_overwrite_leak {st st2 : State} {s d : String} {pri crit : Bool}
    {p : List String} {rOld : FlowRec}
    (hold : lookupFlow st.table (s, d) = some rOld)
    (hcp : computePath st.G s d pri crit = .ok (some p))
    (hok : injectFlow st s d pri crit = .ok st2) :
    (∃ bk, lookupFlow st2.table (s, d) = some ⟨pri, crit, p, bk, .primary⟩) ∧
    st2.G.edges = st.G.edges.map (fun el => (el.1, el.2 + cntIn (pathPairs p) el.1)) ∧
    st2.table.length = st.table.length := by
  unfold injectFlow at hok
  rw [hcp] at hok
  dsimp only at hok
  cases hbk : (if crit then computeBackupPath st.G p else .ok none) with
  | error e =>
    rw [hbk] at hok
    simp at hok
  | ok bk =>
    rw [hbk] at hok
    simp only [Except.ok.injEq] at hok
    rw [← hok]
    refine ⟨⟨bk, ?_⟩, ?_, ?_⟩
    · simp only [addFlow]
      exact lookupFlow_insertFlow_self _ _ _
    · simp only [addFlow]
      exact incPathLoads_edges _ _
    · simp only [addFlow]
      have hany : st.table.any (fun kv => decide (kv.1 = (s, d))) = true :=
        List.any_eq_true.mpr ⟨((s, d), rOld), lookupFlow_mem hold, by simp⟩
      unfold insertFlow
      rw [if_pos hany, List.length_map]

/-- C8 witness: a concrete overwrite of the (A, B) flow. -/
theorem C8_witness :
    (∃ bk, lookupFlow c1Final.table ("A", "B")
      = some ⟨true, false, ["A", "B"], bk, .primary⟩) ∧
    c1Final.G.edges
      = c1Mid.G.edges.map (fun el => (el.1, el.2 + cntIn (pathPairs ["A", "B"]) el.1)) ∧
    c1Final.table.length = c1Mid.table.length :=
  @C8_overwrite_leak c1Mid c1Final "A" "B" true false ["A", "B"] exRec
    (by decide) (by decide) (by decide)

/-! ### Claim C3 -/

theorem pathPairs_ne_nil_of_ne {G : Graph} {s d : String} {q : List String}
    (hq : IsSimplePath G s d q) (hne : s ≠ d) : (pathPairs q).isEmpty = false := by
  obtain ⟨h1, h2, _, _⟩ := hq
  rcases List.head?_eq_some_iff.mp h1 with ⟨rest, hrest⟩
  subst hrest
  cases rest with
  | nil =>
    exfalso
    apply hne
    simpa using h2
  | cons b l => rfl

/-- C3, counterexample to the claim as stated: the pair (A, A) is connected
by the trivial simple path [A] (which `shortest_simple_paths` enumerates),
yet `compute_path` with priority false does not return any enumerated path:
`path_cost`'s `max()` over the empty edge sequence of [A] raises an uncaught
`ValueError`, terminating the call abnormally. -/
theorem C3_counterexample :
    "A" ∈ exG.nodes ∧ IsSimplePath exG "A" "A" ["A"] ∧
    computePath exG "A" "A" false false = .error .valueError :=
  ⟨by decide, ⟨rfl, rfl, by decide, by decide⟩, by decide⟩

/-- C3 (amended): for src and dst present in the topology and connected by at
least one simple path, `compute_path` with priority true returns the first
path of the non-decreasing-length enumeration — a simple path of minimal hop
count, chosen without looking at load; with priority false and src ≠ dst it
returns the enumerated simple path of minimal bottleneck load (maximum
per-edge `num_flows` along the path), ties broken by enumeration order —
every earlier-enumerated path has strictly larger bottleneck load; with
priority false and src = dst the call raises an uncaught `ValueError`
(`max()` of the single-node path's empty edge sequence) instead of
returning a path. -/
theorem C3_select_path_policy {G : Graph} {s d : String}
    (hs : s ∈ G.nodes) (hd : d ∈ G.nodes)
    (hconn : ∃ q, IsSimplePath G s d q) :
    ∃ p0 rest, shortestSimplePaths G s d = p0 :: rest ∧
      (∀ crit, computePath G s d true crit = .ok (some p0)) ∧
      IsSimplePath G s d p0 ∧
      (∀ q, IsSimplePath G s d q → p0.length ≤ q.length) ∧
      (s ≠ d → ∀ crit, ∃ pm l1 l2,
        computePath G s d false crit = .ok (some pm) ∧
        shortestSimplePaths G s d = l1 ++ pm :: l2 ∧
        (∀ q, IsSimplePath G s d q → pathCost G pm ≤ pathCost G q) ∧
        ∀ q ∈ l1, pathCost G pm < pathCost G q) ∧
      (s = d → ∀ crit, computePath G s d false crit = .error .valueError) := by
  obtain ⟨q0, hq0⟩ := hconn
  have hne : shortestSimplePaths G s d ≠ [] :=
    List.ne_nil_of_mem (mem_shortestSimplePaths.mpr hq0)
  cases hssp : shortestSimplePaths G s d with
  | nil => exact absurd hssp hne
  | cons p0 rest =>
    have hsorted : (shortestSimplePaths G s d).Pairwise
        (fun a b => a.length ≤ b.length) :=
      sorted_sortByLen (dfsPaths G d G.allNodes.length s [])
    refine ⟨p0, rest, rfl, ?_, ?_, ?_, ?_, ?_⟩
    · intro crit
      unfold computePath
      rw [if_pos ⟨hs, hd⟩, hssp]
      rfl
    · apply mem_shortestSimplePaths.mp
      rw [hssp]
      exact List.mem_cons_self _ _
    · intro q hq
      have hall : ∀ q2 ∈ shortestSimplePaths G s d, p0.length ≤ q2.length := by
        apply head_sorted_min hsorted
        rw [hssp]
        rfl
      exact hall q (mem_shortestSimplePaths.mpr hq)
    · intro hsd crit
      obtain ⟨l1, l2, hsplit, hmin, hstrict⟩ := pyMinBy_spec (pathCost G) rest p0
      refine ⟨pyMinBy (pathCost G) p0 rest, l1, l2, ?_, ?_, ?_, hstrict⟩
      · have hdeg : ((p0 :: rest).any (fun q => (pathPairs q).isEmpty)) = false := by
          cases hA : (p0 :: rest).any (fun q => (pathPairs q).isEmpty)
          · rfl
          · exfalso
            rcases List.any_eq_true.mp hA with ⟨q, hqmem, hqdeg⟩
            have hqsp : IsSimplePath G s d q := by
              apply mem_shortestSimplePaths.mp
              rw [hssp]
              exact hqmem
            rw [pathPairs_ne_nil_of_ne hqsp hsd] at hqdeg
            cases hqdeg
        unfold computePath
        rw [if_pos ⟨hs, hd⟩, hssp]
        dsimp only
        rw [hdeg]
        rfl
      · exact hsplit
      · intro q hq
        have hmem : q ∈ p0 :: rest := by
          rw [← hssp]
          exact mem_shortestSimplePaths.mpr hq
        exact hmin q hmem
    · intro hsd crit
      subst hsd
      have hmem1 : [s] ∈ shortestSimplePaths G s s :=
        mem_shortestSimplePaths.mpr ⟨rfl, rfl, by simp, by simp [pathPairs]⟩
      have hdeg : ((p0 :: rest).any (fun q => (pathPairs q).isEmpty)) = true := by
        apply List.any_eq_true.mpr
        refine ⟨[s], ?_, rfl⟩
        rw [← hssp]
        exact hmem1
      unfold computePath
      rw [if_pos ⟨hs, hd⟩, hssp]
      dsimp only
      rw [hdeg]
      rfl

/-- C3 witness: on the three-node triangle, priority routing picks the
two-hop path A–B, and load-balanced routing picks the minimal-bottleneck
first-enumerated path. -/
theorem C3_witness :
    ∃ p0 rest, shortestSimplePaths c2G "A" "B" = p0 :: rest ∧
      (∀ crit, computePath c2G "A" "B" true crit = .ok (some p0)) ∧
      IsSimplePath c2G "A" "B" p0 ∧
      (∀ q, IsSimplePath c2G "A" "B" q → p0.length ≤ q.length) ∧
      ("A" ≠ "B" → ∀ crit, ∃ pm l1 l2,
        computePath c2G "A" "B" false crit = .ok (some pm) ∧
        shortestSimplePaths c2G "A" "B" = l1 ++ pm :: l2 ∧
        (∀ q, IsSimplePath c2G "A" "B" q → pathCost c2G pm ≤ pathCost c2G q) ∧
        ∀ q ∈ l1, pathCost c2G pm < pathCost c2G q) ∧
      ("A" = "B" → ∀ crit, computePath c2G "A" "B" false crit = .error .valueError) :=
  C3_select_path_policy (by decide) (by decide) ⟨["A", "B"], rfl, rfl, by decide, by decide⟩

/-! ### Claim C4 -/

/-- C4: `compute_backup_path` on a nonempty primary path with endpoints in
the topology returns a path that is edge-disjoint (in either direction) from
the primary, connects the primary's endpoints, and is a simple path of the
reduced topology with all primary edges removed; it returns NONE exactly when
the endpoints are disconnected there.  Consequently, any record stored by a
successful critical install whose backup is non-absent has an edge-disjoint
backup. -/
theorem C4_backup_disjoint {G : Graph} {p : List String}
    (hpne : p ≠ []) (hs : p.headD "" ∈ G.nodes) (hd : p.getLastD "" ∈ G.nodes) :
    (∀ b, computeBackupPath G p = .ok (some b) →
      EdgeDisjoint (pathPairs b) (pathPairs p) ∧
      b.head? = some (p.headD "") ∧ b.getLast? = some (p.getLastD "") ∧
      IsSimplePath (removePathEdges G p) (p.headD "") (p.getLastD "") b) ∧
    (computeBackupPath G p = .ok none ↔
      ¬∃ q, IsSimplePath (removePathEdges G p) (p.headD "") (p.getLastD "") q) ∧
    ∀ (st st2 : State) (s d : String) (pri : Bool) (pp : List String)
        (r : FlowRec) (b : List String),
      computePath st.G s d pri true = .ok (some pp) →
      injectFlow st s d pri true = .ok st2 →
      lookupFlow st2.table (s, d) = some r → r.backup = some b →
      EdgeDisjoint (pathPairs b) (pathPairs r.primary) := by
  have hsr : p.headD "" ∈ (removePathEdges G p).nodes := by
    rw [removePathEdges_nodes]
    exact hs
  have hdr : p.getLastD "" ∈ (removePathEdges G p).nodes := by
    rw [removePathEdges_nodes]
    exact hd
  refine ⟨?_, ?_, ?_⟩
  · intro b hb
    have hmem := nxShortestPathCaught_some hb
    have hsp := mem_shortestSimplePaths.mp hmem
    refine ⟨?_, hsp.1, hsp.2.1, hsp⟩
    intro x hx e he
    have hedge := hsp.2.2.2 x hx
    exact (removePathEdges_hasEdge hedge).2 e he
  · constructor
    · intro h
      cases hssp : shortestSimplePaths (removePathEdges G p)
          (p.headD "") (p.getLastD "") with
      | nil => exact shortestSimplePaths_eq_nil_iff.mp hssp
      | cons q rest =>
        exfalso
        unfold computeBackupPath nxShortestPathCaught at h
        rw [if_pos ⟨hsr, hdr⟩, hssp] at h
        simp at h
    · intro h
      unfold computeBackupPath nxShortestPathCaught
      rw [if_pos ⟨hsr, hdr⟩, shortestSimplePaths_eq_nil_iff.mpr h]
  · intro st st2 s d pri pp r b hcp hok hlk hrb
    unfold injectFlow at hok
    rw [hcp] at hok
    dsimp only at hok
    cases hbk : computeBackupPath st.G pp with
    | error e =>
      simp [hbk] at hok
    | ok bk =>
      have hok2 : addFlow st s d pp pri true bk = st2 := by
        simpa [hbk] using hok
      rw [← hok2] at hlk
      simp only [addFlow] at hlk
      rw [lookupFlow_insertFlow_self] at hlk
      have hr : r = ⟨pri, true, pp, bk, .primary⟩ := by simpa using hlk.symm
      rw [hr] at hrb ⊢
      dsimp only at hrb ⊢
      rw [hrb] at hbk
      have hmem := nxShortestPathCaught_some hbk
      have hsp := mem_shortestSimplePaths.mp hmem
      intro x hx e he
      have hedge := hsp.2.2.2 x hx
      exact (removePathEdges_hasEdge hedge).2 e he

/-- C4 witness: backup planning for the primary path A–B on the triangle. -/
theorem C4_witness :
    (∀ b, computeBackupPath c2G ["A", "B"] = .ok (some b) →
      EdgeDisjoint (pathPairs b) (pathPairs ["A", "B"]) ∧
      b.head? = some "A" ∧ b.getLast? = some "B" ∧
      IsSimplePath (removePathEdges c2G ["A", "B"]) "A" "B" b) ∧
    (computeBackupPath c2G ["A", "B"] = .ok none ↔
      ¬∃ q, IsSimplePath (removePathEdges c2G ["A", "B"]) "A" "B" q) ∧
    ∀ (st st2 : State) (s d : String) (pri : Bool) (pp : List String)
        (r : FlowRec) (b : List String),
      computePath st.G s d pri true = .ok (some pp) →
      injectFlow st s d pri true = .ok st2 →
      lookupFlow st2.table (s, d) = some r → r.backup = some b →
      EdgeDisjoint (pathPairs b) (pathPairs r.primary) :=
  C4_backup_disjoint (by decide) (by decide) (by decide)

/-! ### Claim C7 -/

theorem foldProcess_outs_length :
    ∀ (l : FlowTable) (acc : State × List Outcome),
      ((l.foldl
        (fun acc kv =>
          ((processFlow acc.1 kv.1 kv.2).1, acc.2 ++ [(processFlow acc.1 kv.1 kv.2).2]))
        acc).2).length = acc.2.length + l.length := by
  intro l
  induction l with
  | nil =>
    intro acc
    simp
  | cons kv l ih =>
    intro acc
    rw [List.foldl_cons, ih]
    simp only [List.length_append, List.length_cons, List.length_nil]
    omega

/-- C7, counterexample to the claim as stated: after the backup edge C–B
fails (flow unaffected, still on its primary) and then the primary edge A–B
fails, the flow is rerouted with outcome REROUTED onto backup [A, C, B], yet
no load increment happens along the backup edge (C, B) — that edge no longer
exists in the topology — contradicting "load is incremented by 1 along every
edge of the backup path". -/
theorem C7_counterexample :
    failLink c2S1 "C" "B" = (c7S2, some []) ∧
    failLink c7S2 "A" "B" = (c7S3, some [.rerouted "A" "B" ["A", "C", "B"]]) ∧
    ("C", "B") ∈ pathPairs ["A", "C", "B"] ∧
    c7S3.G.getLoad "C" "B" = none := by
  exact ⟨by decide, by decide, by decide, by decide⟩

/-- C7 (amended): in `fail_link(u, v)` a flow is affected exactly when its
active path contains the edge (u, v) in either direction as a consecutive
node pair, and one outcome is reported per affected flow; each processed
flow's load accounting changes every surviving edge by −1 if its old active
path traverses it and, in the critical-with-nonempty-backup case, +1 if the
backup traverses it — i.e. the backup increment covers only backup edges
still present — after which the record's active selector is BACKUP with
outcome REROUTED carrying the backup path; otherwise the record is deleted
with outcome EVICTED. -/
theorem C7_fail_link_behavior {st : State} {u v : String} {k : String × String}
    {r : FlowRec} (hap : (activePath r).Nodup)
    (hbnd : ∀ b, r.backup = some b → b.Nodup) :
    (isAffected r u v = true ↔
      (u, v) ∈ pathPairs (activePath r) ∨ (v, u) ∈ pathPairs (activePath r)) ∧
    (∀ outs, st.G.hasEdge u v = true → (failLink st u v).2 = some outs →
      outs.length = (st.table.filter (fun kv => isAffected kv.2 u v)).length) ∧
    ((r.critical && truthy r.backup) = true →
      ∃ b, r.backup = some b ∧
        processFlow st k r =
          (⟨incPathLoads (decPathLoads st.G (activePath r)) b,
            setActiveBackup st.table k⟩, .rerouted k.1 k.2 b) ∧
        ∀ el ∈ st.G.edges,
          (el.1, el.2 - (if traverses r el.1 = true then 1 else 0)
            + (if (pathPairs b).any (fun q => sameEdge q el.1) then 1 else 0))
            ∈ (processFlow st k r).1.G.edges) ∧
    ((r.critical && truthy r.backup) = false →
      processFlow st k r
        = (⟨decPathLoads st.G (activePath r), eraseFlow st.table k⟩,
          .evicted k.1 k.2) ∧
      ∀ el ∈ st.G.edges,
        (el.1, el.2 - (if traverses r el.1 = true then 1 else 0))
          ∈ (processFlow st k r).1.G.edges) := by
  refine ⟨?_, ?_, ?_, ?_⟩
  · constructor
    · intro h
      unfold isAffected at h
      simp only [Bool.or_eq_true, Bool.and_eq_true] at h
      rcases h with ⟨_, h1⟩ | h1
      · left
        simpa using h1
      · right
        simpa using h1
    · intro h
      unfold isAffected
      simp only [Bool.or_eq_true, Bool.and_eq_true]
      rcases h with h1 | h1
      · left
        refine ⟨?_, by simpa using h1⟩
        cases hpath : activePath r with
        | nil =>
          rw [hpath] at h1
          simp [pathPairs] at h1
        | cons a l => rfl
      · right
        simpa using h1
  · intro outs hedge houts
    unfold failLink at houts
    rw [if_pos hedge] at houts
    dsimp only at houts
    have heq : outs = ((st.table.filter (fun kv => isAffected kv.2 u v)).foldl
        (fun acc kv => ((processFlow acc.1 kv.1 kv.2).1,
          acc.2 ++ [(processFlow acc.1 kv.1 kv.2).2]))
        (⟨st.G.removeEdge u v, st.table⟩, [])).2 := by
      exact (Option.some.inj houts).symm
    rw [heq, foldProcess_outs_length]
    simp
  · intro hcond
    obtain ⟨b, hb, _⟩ : ∃ b, r.backup = some b ∧ b.isEmpty = false := by
      cases hbk : r.backup with
      | none =>
        rw [hbk] at hcond
        simp [truthy] at hcond
      | some l =>
        refine ⟨l, rfl, ?_⟩
        rw [hbk] at hcond
        simp [truthy] at hcond
        simpa using hcond.2
    have hproc : processFlow st k r
        = (⟨incPathLoads (decPathLoads st.G (activePath r)) b,
            setActiveBackup st.table k⟩, .rerouted k.1 k.2 b) := by
      have hc := hcond
      rw [Bool.and_eq_true] at hc
      simp [processFlow, hcond, hb]
      exact ⟨hc.1, by rw [← hb]; exact hc.2⟩
    refine ⟨b, hb, hproc, ?_⟩
    have hedges : (processFlow st k r).1.G.edges
        = st.G.edges.map (fun el =>
            (el.1, el.2 - cntIn (pathPairs (activePath r)) el.1
              + cntIn (pathPairs b) el.1)) := by
      rw [hproc]
      dsimp only
      rw [incPathLoads_edges, decPathLoads_edges, List.map_map]
      rfl
    intro el hel
    rw [hedges, ← cntIn_activePath hap el.1,
      ← cntIn_pathPairs_eq (hbnd b hb) el.1]
    exact List.mem_map_of_mem _ hel
  · intro hcond
    have hproc : processFlow st k r
        = (⟨decPathLoads st.G (activePath r), eraseFlow st.table k⟩,
          .evicted k.1 k.2) := by
      simp [processFlow, hcond]
    refine ⟨hproc, ?_⟩
    have hedges : (processFlow st k r).1.G.edges
        = st.G.edges.map (fun el =>
            (el.1, el.2 - cntIn (pathPairs (activePath r)) el.1)) := by
      rw [hproc]
      dsimp only
      exact decPathLoads_edges _ _
    intro el hel
    rw [hedges, ← cntIn_activePath hap el.1]
    exact List.mem_map_of_mem _ hel

/-- C7 witness: the per-flow characterization applied at the state where the
backup edge C–B has already failed and the primary edge A–B now fails. -/
theorem C7_witness :
    (isAffected c2RecP "A" "B" = true ↔
      ("A", "B") ∈ pathPairs (activePath c2RecP) ∨
        ("B", "A") ∈ pathPairs (activePath c2RecP)) ∧
    (∀ outs, c7S2.G.hasEdge "A" "B" = true → (failLink c7S2 "A" "B").2 = some outs →
      outs.length
        = (c7S2.table.filter (fun kv => isAffected kv.2 "A" "B")).length) ∧
    ((c2RecP.critical && truthy c2RecP.backup) = true →
      ∃ b, c2RecP.backup = some b ∧
        processFlow c7S2 ("A", "B") c2RecP =
          (⟨incPathLoads (decPathLoads c7S2.G (activePath c2RecP)) b,
            setActiveBackup c7S2.table ("A", "B")⟩, .rerouted "A" "B" b) ∧
        ∀ el ∈ c7S2.G.edges,
          (el.1, el.2 - (if traverses c2RecP el.1 = true then 1 else 0)
            + (if (pathPairs b).any (fun q => sameEdge q el.1) then 1 else 0))
            ∈ (processFlow c7S2 ("A", "B") c2RecP).1.G.edges) ∧
    ((c2RecP.critical && truthy c2RecP.backup) = false →
      processFlow c7S2 ("A", "B") c2RecP
        = (⟨decPathLoads c7S2.G (activePath c2RecP),
            eraseFlow c7S2.table ("A", "B")⟩, .evicted "A" "B") ∧
      ∀ el ∈ c7S2.G.edges,
        (el.1, el.2 - (if traverses c2RecP el.1 = true then 1 else 0))
          ∈ (processFlow c7S2 ("A", "B") c2RecP).1.G.edges) :=
  C7_fail_link_behavior (by decide)
    (fun b hb => (Option.some.inj hb) ▸
      (by decide : (["A", "C", "B"] : List String).Nodup))

end SDN
